import Mathlib

/-
  Verification of the binary-tree summation kernel.

  The development shallowly embeds the C++ sources:
  * the index-tree functions and the single-tree summation driver of
    BinaryTreeSummation (src/unnamed/part_000),
  * the local remainder reducer, region normalisation and rank ordering of
    DualTreeSummation (src/unnamed/part_002, src/src/allreduce_summation.cpp),
  * the MessageBuffer coalescing layer (src/unnamed/part_000).

  Floating-point values are embedded as an abstract type `α` together with an
  abstract (non-associative, non-commutative) binary operation
  `add : α → α → α`.  IEEE double addition is one interpretation of `add`;
  since no algebraic law of `add` is assumed, any equality proved between two
  `α`-expressions states that the two computations perform bit-for-bit the
  same sequence of floating-point additions, hence return bit-identical
  results.  Fallible code paths (out-of-range buffer reads, protocol
  violations) are embedded with `Option`.
-/

set_option maxHeartbeats 1000000

/-! ### Index-tree functions (src/unnamed/part_000, lines 225-230 and 360-367)

The C++ operates on `uint64_t`.  All functions below are used by the program
only at arguments `0 < i < 2^64` (the sources assert `i != 0`), where the
untruncated natural-number formulas agree with the machine arithmetic:
`i - 1` does not wrap and `i ||| (i-1) < 2^64`. -/

/-- Embedding of `BinaryTreeSummation::parent`: clear the least significant
set bit, `i & (i - 1)`. -/
def parent (i : ℕ) : ℕ := i &&& (i - 1)

/-- Embedding of `BinaryTreeSummation::largest_child_index`: `i | (i - 1)`. -/
def largest_child_index (i : ℕ) : ℕ := i ||| (i - 1)

/-- Embedding of `BinaryTreeSummation::subtree_size`:
`largest_child_index(index) + 1 - index`. -/
def subtree_size (i : ℕ) : ℕ := largest_child_index i + 1 - i

/-! ### Trailing zeros

`tz n` counts the trailing zero bits of `n` (with `tz 0 = 0`).  It is defined
with an explicit fuel argument so that it evaluates by `decide` on concrete
inputs. -/

/-- Fuel-driven trailing-zero count. -/
def tzF : ℕ → ℕ → ℕ
  | 0, _ => 0
  | f + 1, n => if n % 2 = 1 ∨ n = 0 then 0 else tzF f (n / 2) + 1

/-- Number of trailing zero bits of `n` (0 for `n = 0`). -/
def tz (n : ℕ) : ℕ := tzF n n

theorem tzF_congr : ∀ f f' n, n ≤ f → n ≤ f' → tzF f n = tzF f' n := by
  intro f
  induction f with
  | zero =>
    intro f' n h h'
    have hn : n = 0 := by omega
    subst hn
    cases f' <;> simp [tzF]
  | succ f ih =>
    intro f' n h h'
    match f', n with
    | 0, n =>
      have hn : n = 0 := by omega
      subst hn
      simp [tzF]
    | f' + 1, n =>
      simp only [tzF]
      by_cases hc : n % 2 = 1 ∨ n = 0
      · rw [if_pos hc, if_pos hc]
      · rw [if_neg hc, if_neg hc]
        have hn0 : n ≠ 0 := fun hh => hc (Or.inr hh)
        rw [ih f' (n / 2) (by omega) (by omega)]

theorem tz_odd {n : ℕ} (h : n % 2 = 1) : tz n = 0 := by
  have h0 : n ≠ 0 := by omega
  unfold tz
  obtain ⟨m, rfl⟩ : ∃ m, n = m + 1 := ⟨n - 1, by omega⟩
  simp [tzF, h]

theorem tz_even {n : ℕ} (h : n % 2 = 0) (h0 : n ≠ 0) : tz n = tz (n / 2) + 1 := by
  unfold tz
  obtain ⟨m, rfl⟩ : ∃ m, n = m + 1 := ⟨n - 1, by omega⟩
  have hstep : tzF (m + 1) (m + 1) = tzF m ((m + 1) / 2) + 1 := by
    have hcond : ¬((m + 1) % 2 = 1 ∨ (m + 1) = 0) := by omega
    simp only [tzF, if_neg hcond]
  rw [hstep]
  congr 1
  exact tzF_congr m ((m + 1) / 2) ((m + 1) / 2) (by omega) (le_refl _)

/-- Every positive `n` factors as `2 ^ tz n` times an odd number. -/
theorem tz_spec : ∀ n : ℕ, n ≠ 0 → ∃ m, m % 2 = 1 ∧ n = 2 ^ tz n * m := by
  intro n
  induction n using Nat.strong_induction_on with
  | _ n ih =>
    intro h0
    rcases Nat.even_or_odd n with he | ho
    · have hmod : n % 2 = 0 := Nat.even_iff.mp he
      have hlt : n / 2 < n := Nat.div_lt_self (by omega) (by omega)
      have hne : n / 2 ≠ 0 := by omega
      obtain ⟨m, hm, heq⟩ := ih (n / 2) hlt hne
      refine ⟨m, hm, ?_⟩
      rw [tz_even hmod h0, pow_succ]
      calc n = 2 * (n / 2) := by omega
        _ = 2 * (2 ^ tz (n / 2) * m) := by rw [← heq]
        _ = 2 ^ tz (n / 2) * 2 * m := by ring
    · have hmod : n % 2 = 1 := Nat.odd_iff.mp ho
      exact ⟨n, hmod, by rw [tz_odd hmod]; ring⟩

/-- The 2-adic valuation computed by `tz` is unique. -/
theorem tz_unique : ∀ t m : ℕ, m % 2 = 1 → tz (2 ^ t * m) = t := by
  intro t
  induction t with
  | zero => intro m hm; simpa using tz_odd hm
  | succ t ih =>
    intro m hm
    have hsplit : 2 ^ (t + 1) * m = 2 * (2 ^ t * m) := by ring
    have hA : 0 < 2 ^ t * m := Nat.mul_pos (Nat.two_pow_pos t) (by omega)
    have h0 : 2 ^ (t + 1) * m ≠ 0 := by omega
    have heven : (2 ^ (t + 1) * m) % 2 = 0 := by omega
    have hdiv : (2 ^ (t + 1) * m) / 2 = 2 ^ t * m := by omega
    rw [tz_even heven h0, hdiv, ih m hm]

/-! ### Bitwise identities for `parent` and `subtree_size` -/

theorem land_two_mul_add (a b x y : ℕ) (hx : x < 2) (hy : y < 2) :
    (2 * a + x) &&& (2 * b + y) = 2 * (a &&& b) + (x &&& y) := by
  apply Nat.eq_of_testBit_eq
  intro k
  have hxy : x &&& y < 2 := by interval_cases x <;> interval_cases y <;> decide
  cases k with
  | zero =>
    have h1 : (2 * a + x) % 2 = x := by omega
    have h2 : (2 * b + y) % 2 = y := by omega
    have h3 : (2 * (a &&& b) + (x &&& y)) % 2 = x &&& y := by omega
    rw [Nat.testBit_land, Nat.testBit_zero, Nat.testBit_zero, Nat.testBit_zero,
        h1, h2, h3]
    interval_cases x <;> interval_cases y <;> decide
  | succ k =>
    have h1 : (2 * a + x) / 2 = a := by omega
    have h2 : (2 * b + y) / 2 = b := by omega
    have h3 : (2 * (a &&& b) + (x &&& y)) / 2 = a &&& b := by omega
    have e1 : (2 * a + x).testBit (k + 1) = a.testBit k := by
      rw [Nat.testBit_succ, h1]
    have e2 : (2 * b + y).testBit (k + 1) = b.testBit k := by
      rw [Nat.testBit_succ, h2]
    have e3 : (2 * (a &&& b) + (x &&& y)).testBit (k + 1) = (a &&& b).testBit k := by
      rw [Nat.testBit_succ, h3]
    rw [Nat.testBit_land, e1, e2, e3, Nat.testBit_land]

theorem lor_two_mul_add (a b x y : ℕ) (hx : x < 2) (hy : y < 2) :
    (2 * a + x) ||| (2 * b + y) = 2 * (a ||| b) + (x ||| y) := by
  apply Nat.eq_of_testBit_eq
  intro k
  have hxy : x ||| y < 2 := by interval_cases x <;> interval_cases y <;> decide
  cases k with
  | zero =>
    have h1 : (2 * a + x) % 2 = x := by omega
    have h2 : (2 * b + y) % 2 = y := by omega
    have h3 : (2 * (a ||| b) + (x ||| y)) % 2 = x ||| y := by omega
    rw [Nat.testBit_lor, Nat.testBit_zero, Nat.testBit_zero, Nat.testBit_zero,
        h1, h2, h3]
    interval_cases x <;> interval_cases y <;> decide
  | succ k =>
    have h1 : (2 * a + x) / 2 = a := by omega
    have h2 : (2 * b + y) / 2 = b := by omega
    have h3 : (2 * (a ||| b) + (x ||| y)) / 2 = a ||| b := by omega
    have e1 : (2 * a + x).testBit (k + 1) = a.testBit k := by
      rw [Nat.testBit_succ, h1]
    have e2 : (2 * b + y).testBit (k + 1) = b.testBit k := by
      rw [Nat.testBit_succ, h2]
    have e3 : (2 * (a ||| b) + (x ||| y)).testBit (k + 1) = (a ||| b).testBit k := by
      rw [Nat.testBit_succ, h3]
    rw [Nat.testBit_lor, e1, e2, e3, Nat.testBit_lor]

/-- `i & (i-1)` subtracts the lowest set bit: statement over the
`2^t * odd` factorisation. -/
theorem land_pred_pow : ∀ t m : ℕ, m % 2 = 1 →
    (2 ^ t * m) &&& (2 ^ t * m - 1) = 2 ^ t * m - 2 ^ t := by
  intro t
  induction t with
  | zero =>
    intro m hm
    simp only [pow_zero, one_mul]
    obtain ⟨q, rfl⟩ : ∃ q, m = 2 * q + 1 := ⟨m / 2, by omega⟩
    have hsub : 2 * q + 1 - 1 = 2 * q + 0 := by omega
    rw [hsub, land_two_mul_add q q 1 0 (by omega) (by omega), Nat.and_self]
    have hc : (1 : ℕ) &&& 0 = 0 := by decide
    rw [hc]
  | succ t ih =>
    intro m hm
    have ha : 1 ≤ 2 ^ t * m := Nat.mul_pos (Nat.two_pow_pos t) (by omega)
    have he1 : 2 ^ (t + 1) * m = 2 * (2 ^ t * m) + 0 := by ring
    have he2 : 2 ^ (t + 1) * m - 1 = 2 * (2 ^ t * m - 1) + 1 := by omega
    rw [he2, he1, land_two_mul_add _ _ 0 1 (by omega) (by omega), ih m hm]
    have hc : (0 : ℕ) &&& 1 = 0 := by decide
    rw [hc]
    have hb : 2 ^ t ≤ 2 ^ t * m := Nat.le_mul_of_pos_right _ (by omega)
    have hp : (2 : ℕ) ^ (t + 1) = 2 * 2 ^ t := by ring
    omega

/-- `i | (i-1)` fills the trailing zeros: statement over the
`2^t * odd` factorisation. -/
theorem lor_pred_pow : ∀ t m : ℕ, m % 2 = 1 →
    (2 ^ t * m) ||| (2 ^ t * m - 1) = 2 ^ t * m + 2 ^ t - 1 := by
  intro t
  induction t with
  | zero =>
    intro m hm
    simp only [pow_zero, one_mul]
    obtain ⟨q, rfl⟩ : ∃ q, m = 2 * q + 1 := ⟨m / 2, by omega⟩
    have hsub : 2 * q + 1 - 1 = 2 * q + 0 := by omega
    rw [hsub, lor_two_mul_add q q 1 0 (by omega) (by omega), Nat.or_self]
    have hc : (1 : ℕ) ||| 0 = 1 := by decide
    rw [hc]
    omega
  | succ t ih =>
    intro m hm
    have ha : 1 ≤ 2 ^ t * m := Nat.mul_pos (Nat.two_pow_pos t) (by omega)
    have he1 : 2 ^ (t + 1) * m = 2 * (2 ^ t * m) + 0 := by ring
    have he2 : 2 ^ (t + 1) * m - 1 = 2 * (2 ^ t * m - 1) + 1 := by omega
    rw [he2, he1, lor_two_mul_add _ _ 0 1 (by omega) (by omega), ih m hm]
    have hc : (0 : ℕ) ||| 1 = 1 := by decide
    rw [hc]
    have hp : (2 : ℕ) ^ (t + 1) = 2 * 2 ^ t := by ring
    omega

/-- For positive `i`, `parent i` removes exactly the lowest set bit. -/
theorem parent_eq (i : ℕ) (h : i ≠ 0) : parent i = i - 2 ^ tz i := by
  obtain ⟨m, hm, heq⟩ := tz_spec i h
  calc parent i = (2 ^ tz i * m) &&& (2 ^ tz i * m - 1) := by rw [parent, ← heq]
    _ = 2 ^ tz i * m - 2 ^ tz i := land_pred_pow _ m hm
    _ = i - 2 ^ tz i := by rw [← heq]

/-- For positive `i`, the subtree size is the two power `2 ^ tz i`. -/
theorem subtree_size_eq (i : ℕ) (h : i ≠ 0) : subtree_size i = 2 ^ tz i := by
  obtain ⟨m, hm, heq⟩ := tz_spec i h
  have hlor : i ||| (i - 1) = i + 2 ^ tz i - 1 := by
    have h2 := lor_pred_pow (tz i) m hm
    rw [← heq] at h2
    exact h2
  rw [subtree_size, largest_child_index, hlor]
  have := Nat.two_pow_pos (tz i)
  omega

/-- The lowest set bit divides `i`. -/
theorem tz_dvd (i : ℕ) : 2 ^ tz i ∣ i := by
  rcases Nat.eq_zero_or_pos i with h | h
  · simp [h]
  · obtain ⟨m, _, heq⟩ := tz_spec i (by omega)
    exact ⟨m, heq⟩

/-- For positive `i`, `parent i` is strictly smaller than `i`. -/
theorem parent_lt (i : ℕ) (h : 0 < i) : parent i < i := by
  rw [parent_eq i (by omega)]
  have h1 : 2 ^ tz i ≤ i := Nat.le_of_dvd h (tz_dvd i)
  have h2 : 0 < 2 ^ tz i := Nat.two_pow_pos _
  omega

/-- Subtree sizes of positive indices are positive. -/
theorem subtree_size_pos (i : ℕ) (h : 0 < i) : 0 < subtree_size i := by
  rw [subtree_size_eq i (by omega)]
  exact Nat.two_pow_pos _

/-- If `2^k` divides a positive `n`, then `k` is at most the trailing-zero
count of `n`. -/
theorem le_tz_of_dvd {k n : ℕ} (h0 : n ≠ 0) (hdvd : 2 ^ k ∣ n) : k ≤ tz n := by
  obtain ⟨m, hm, heq⟩ := tz_spec n h0
  obtain ⟨t, ht⟩ : ∃ t, tz n = t := ⟨tz n, rfl⟩
  rw [ht] at heq ⊢
  by_contra hlt
  have hd2 : 2 ^ (t + 1) ∣ n := dvd_trans (pow_dvd_pow 2 (by omega)) hdvd
  obtain ⟨c, hc⟩ := hd2
  have heq2 : 2 ^ t * m = 2 ^ t * (2 * c) := by
    calc 2 ^ t * m = n := heq.symm
      _ = 2 ^ (t + 1) * c := hc
      _ = 2 ^ t * (2 * c) := by ring
  have hmc : m = 2 * c := Nat.eq_of_mul_eq_mul_left (Nat.two_pow_pos _) heq2
  omega

/-- Advancing by the subtree size cannot increase the parent. -/
theorem parent_step (i : ℕ) (h0 : 0 < i) :
    parent (i + subtree_size i) ≤ parent i := by
  obtain ⟨m, hm, heq⟩ := tz_spec i (by omega)
  obtain ⟨t, ht⟩ : ∃ t, tz i = t := ⟨tz i, rfl⟩
  rw [ht] at heq
  rw [subtree_size_eq i (by omega), ht]
  have hisum : i + 2 ^ t = 2 ^ t * (m + 1) := by
    calc i + 2 ^ t = 2 ^ t * m + 2 ^ t := by rw [heq]
      _ = 2 ^ t * (m + 1) := by ring
  have hdvd : 2 ^ (t + 1) ∣ i + 2 ^ t := by
    refine ⟨(m + 1) / 2, ?_⟩
    have hO : m + 1 = 2 * ((m + 1) / 2) := by omega
    calc i + 2 ^ t = 2 ^ t * (m + 1) := hisum
      _ = 2 ^ t * (2 * ((m + 1) / 2)) := by rw [← hO]
      _ = 2 ^ (t + 1) * ((m + 1) / 2) := by ring
  have h0' : i + 2 ^ t ≠ 0 := by positivity
  have htz : t + 1 ≤ tz (i + 2 ^ t) := le_tz_of_dvd h0' hdvd
  have hple : 2 ^ (t + 1) ≤ 2 ^ tz (i + 2 ^ t) :=
    Nat.pow_le_pow_right (by omega) htz
  have hle2 : 2 ^ tz (i + 2 ^ t) ≤ i + 2 ^ t :=
    Nat.le_of_dvd (by omega) (tz_dvd _)
  rw [parent_eq _ h0', parent_eq i (by omega), ht]
  have hti : 2 ^ t ≤ i := by
    have hdt := tz_dvd i
    rw [ht] at hdt
    exact Nat.le_of_dvd h0 hdt
  have hp1 : (2 : ℕ) ^ (t + 1) = 2 * 2 ^ t := by ring
  omega

/-- An index strictly inside the subtree of `i` has its parent at or after
`i`. -/
theorem interior_parent_ge (i x : ℕ) (h0 : 0 < i) (hlt : i < x)
    (hub : x < i + subtree_size i) : i ≤ parent x := by
  obtain ⟨m, hm, heqi⟩ := tz_spec i (by omega)
  obtain ⟨t, ht⟩ : ∃ t, tz i = t := ⟨tz i, rfl⟩
  rw [ht] at heqi
  rw [subtree_size_eq i (by omega), ht] at hub
  obtain ⟨c, hc, heqd⟩ := tz_spec (x - i) (by omega)
  obtain ⟨s, hs⟩ : ∃ s, tz (x - i) = s := ⟨tz (x - i), rfl⟩
  rw [hs] at heqd
  have hsle : 2 ^ s ≤ x - i := by
    have hdt := tz_dvd (x - i)
    rw [hs] at hdt
    exact Nat.le_of_dvd (by omega) hdt
  have hst : s < t := by
    have hpow : (2 : ℕ) ^ s < 2 ^ t := by omega
    exact (Nat.pow_lt_pow_iff_right (by omega)).mp hpow
  have hsplit : (2 : ℕ) ^ t = 2 ^ s * 2 ^ (t - s) := by
    rw [← pow_add]
    congr 1
    omega
  have hxeq : x = 2 ^ s * (2 ^ (t - s) * m + c) := by
    calc x = i + (x - i) := by omega
      _ = 2 ^ t * m + 2 ^ s * c := by rw [heqd, heqi]
      _ = 2 ^ s * (2 ^ (t - s) * m + c) := by rw [hsplit]; ring
  have hodd : (2 ^ (t - s) * m + c) % 2 = 1 := by
    have h2 : (2 : ℕ) ^ (t - s) = 2 * 2 ^ (t - s - 1) := by
      rw [← pow_succ']
      congr 1
      omega
    have h3 : 2 ^ (t - s) * m = 2 * (2 ^ (t - s - 1) * m) := by
      rw [h2]; ring
    omega
  have htzx : tz x = s := by rw [hxeq]; exact tz_unique _ _ hodd
  have hx0 : x ≠ 0 := by omega
  rw [parent_eq x hx0, htzx]
  omega

/-! ### The greedy walk of `calculateRankIntersectingSummands`
(src/unnamed/part_000, lines 249-267)

The loop `while (index < end) { push index; index += subtree_size(index); }`
is embedded with explicit fuel; `e - b` steps suffice because every subtree
size is positive.  (The source asserts `begin != 0` for non-root ranks;
`parent(0)` and `subtree_size(0)` are never taken on the paths embedded
here.) -/

/-- Fuel-driven greedy walk. -/
def walkF : ℕ → ℕ → ℕ → List ℕ
  | 0, _, _ => []
  | f + 1, i, e => if i < e then i :: walkF f (i + subtree_size i) e else []

/-- Embedding of `BinaryTreeSummation::calculateRankIntersectingSummands`
for a non-root rank owning the region `[b, e)`. -/
def calculateRankIntersectingSummands (b e : ℕ) : List ℕ := walkF (e - b) b e

theorem subtree_size_pos' (i : ℕ) : 0 < subtree_size i := by
  rcases Nat.eq_zero_or_pos i with h | h
  · subst h; decide
  · exact subtree_size_pos i h

theorem walkF_congr : ∀ f f' i e, e - i ≤ f → e - i ≤ f' →
    walkF f i e = walkF f' i e := by
  intro f
  induction f with
  | zero =>
    intro f' i e h h'
    have : ¬ i < e := by omega
    cases f' <;> simp [walkF, this]
  | succ f ih =>
    intro f' i e h h'
    match f' with
    | 0 =>
      have : ¬ i < e := by omega
      simp [walkF, this]
    | f' + 1 =>
      simp only [walkF]
      by_cases hc : i < e
      · rw [if_pos hc, if_pos hc]
        have hpos := subtree_size_pos' i
        rw [ih f' (i + subtree_size i) e (by omega) (by omega)]
      · rw [if_neg hc, if_neg hc]

theorem walk_mem_bounds : ∀ f i e j, j ∈ walkF f i e → i ≤ j ∧ j < e := by
  intro f
  induction f with
  | zero => intro i e j h; simp [walkF] at h
  | succ f ih =>
    intro i e j h
    simp only [walkF] at h
    by_cases hc : i < e
    · rw [if_pos hc] at h
      rcases List.mem_cons.mp h with rfl | htail
      · omega
      · have := ih _ _ _ htail
        have := subtree_size_pos' i
        omega
    · rw [if_neg hc] at h
      simp at h

theorem walk_parent_lt : ∀ f i e b, 0 < i → parent i < b →
    ∀ j ∈ walkF f i e, parent j < b := by
  intro f
  induction f with
  | zero => intro i e b _ _ j h; simp [walkF] at h
  | succ f ih =>
    intro i e b h0 hp j h
    simp only [walkF] at h
    by_cases hc : i < e
    · rw [if_pos hc] at h
      rcases List.mem_cons.mp h with rfl | htail
      · exact hp
      · have hpos := subtree_size_pos i h0
        have hstep := parent_step i h0
        exact ih _ _ _ (by omega) (by omega) j htail
    · rw [if_neg hc] at h
      simp at h

/-- The greedy walk reaches every index of `[i, e)` whose parent lies
strictly before the walk position. -/
theorem walk_hits : ∀ f i e x, e - i ≤ f → i ≤ x → x < e →
    (parent x < i ∨ x = i) → x ∈ walkF f i e := by
  intro f
  induction f with
  | zero => intro i e x h hix hxe _; omega
  | succ f ih =>
    intro i e x h hix hxe hpar
    have hie : i < e := by omega
    simp only [walkF, if_pos hie]
    rcases Nat.eq_or_lt_of_le hix with rfl | hlt
    · exact List.mem_cons_self _ _
    · have hpx : parent x < i := by
        rcases hpar with h' | h'
        · exact h'
        · omega
      have h0i : 0 < i ∨ i = 0 := by omega
      have hnext : i + subtree_size i ≤ x := by
        rcases Nat.eq_zero_or_pos i with hz | hz
        · -- i = 0 never occurs on the embedded paths (begin != 0 is
          -- asserted in the source); here parent x < 0 is absurd.
          omega
        · by_contra hcon
          have := interior_parent_ge i x hz hlt (by omega)
          omega
      refine List.mem_cons_of_mem _ (ih _ _ _ ?_ hnext hxe ?_)
      · have := subtree_size_pos' i
        omega
      · left
        have := subtree_size_pos' i
        omega

/-- C7: for every 64-bit index `i > 0`, `parent i = i & (i-1)` is strictly
smaller than `i`, and `subtree_size i = largest_child_index i + 1 - i`
equals 2 raised to the number of trailing zero bits of `i`, hence is a
power of two. -/
theorem C7_parent_lt_and_subtree_size_pow (i : ℕ) (h0 : 0 < i)
    (h64 : i < 2 ^ 64) :
    parent i < i ∧ subtree_size i = 2 ^ tz i :=
  ⟨parent_lt i h0, subtree_size_eq i (by omega)⟩

/-- Witness for C7 at the concrete index 12 (trailing zeros 2,
subtree size 4, parent 8). -/
theorem C7_parent_lt_and_subtree_size_pow_witness :
    0 < 12 ∧ 12 < 2 ^ 64 ∧ (parent 12 < 12 ∧ subtree_size 12 = 2 ^ tz 12) :=
  ⟨by decide, by decide,
    C7_parent_lt_and_subtree_size_pow 12 (by decide) (by decide)⟩

/-- C10: on a non-root rank owning `[b, e)` with `0 < b`, every index
produced by the greedy walk of `calculateRankIntersectingSummands` has its
parent strictly before the rank's region. -/
theorem C10_walk_parents_before_region (b e : ℕ) (hb : 0 < b) :
    ∀ j ∈ calculateRankIntersectingSummands b e, parent j < b := by
  intro j hj
  exact walk_parent_lt (e - b) b e b hb (parent_lt b hb) j hj

/-- Witness for C10 on the region `[b, e) = [3, 9)`: the walk emits
3, 4, 8 and each parent (2, 0, 0) precedes the region. -/
theorem C10_walk_parents_before_region_witness :
    0 < 3 ∧ (∀ j ∈ calculateRankIntersectingSummands 3 9, parent j < 3) :=
  ⟨by decide, C10_walk_parents_before_region 3 9 (by decide)⟩

/-! ### Pairing levels and the ragged-tail reducer
(src/unnamed/part_002, lines 42-64)

`DualTreeSummation::sum_remaining_8tree` runs three level iterations in
place: each level writes `buffer[elementsWritten++] = buffer[i] + buffer[i+1]`
for adjacent pairs and, when the element count is odd, carries the last
element unchanged (`buffer[elementsWritten++] = buffer[remainingElements-1]`).
Every position the level writes lies strictly before every position it still
has to read (`elementsWritten` trails `i`, and the carried element at
position `remainingElements - 1` has not yet been overwritten because at most
`(remainingElements - 1) / 2 < remainingElements - 1` pairs were written, and
for `remainingElements = 1` position 0 is read before being written), so the
in-place loop computes the functional level below. -/

/-- One pairing level: adjacent elements combine as left + right, a trailing
unpaired element is carried unchanged. -/
def pairLevel {α : Type} (add : α → α → α) : List α → List α
  | [] => []
  | [a] => [a]
  | a :: b :: rest => add a b :: pairLevel add rest

/-- Embedding of `DualTreeSummation::sum_remaining_8tree`: three pairing
levels, then the first buffer cell.  (The source asserts
`remainingElements == 1` at the end; for an empty buffer the embedded
function returns `none`.) -/
def sum_remaining_8tree {α : Type} (add : α → α → α) (l : List α) : Option α :=
  (pairLevel add (pairLevel add (pairLevel add l))).head?

/-- Fuel-driven iteration of `pairLevel` down to a single value: the
reference index-tree fold on a contiguous block. -/
def pairFoldF {α : Type} (add : α → α → α) : ℕ → List α → Option α
  | 0, _ => none
  | f + 1, l => if l.length = 1 then l.head? else pairFoldF add f (pairLevel add l)

/-- The index-tree pairing order on a contiguous block: pair adjacent
values (low + high, left before right), carry an unpaired value, repeat. -/
def pairFold {α : Type} (add : α → α → α) (l : List α) : Option α :=
  pairFoldF add l.length l

theorem pairLevel_length {α : Type} (add : α → α → α) :
    ∀ l : List α, (pairLevel add l).length = (l.length + 1) / 2 := by
  intro l
  induction l using pairLevel.induct add with
  | case1 => simp [pairLevel]
  | case2 a => simp [pairLevel]
  | case3 a b rest ih =>
    simp only [pairLevel, List.length_cons, ih]
    omega

/-- C5: for every remainder of `r` values with `1 ≤ r < 8`,
`sum_remaining_8tree` reduces them in the index-tree pairing order
(adjacent pairs, low + high, left before right), carrying an unpaired
element unchanged; in particular for `r = 3` the result is `(a0+a1)+a2`. -/
theorem C5_sum_remaining_8tree_pairing {α : Type} (add : α → α → α)
    (l : List α) (h1 : 1 ≤ l.length) (h2 : l.length < 8) :
    sum_remaining_8tree add l = pairFold add l ∧
      ∀ a0 a1 a2 : α,
        sum_remaining_8tree add [a0, a1, a2] = some (add (add a0 a1) a2) := by
  constructor
  · rcases l with _ | ⟨a, _ | ⟨b, _ | ⟨c, _ | ⟨d, _ | ⟨e, _ | ⟨f, _ | ⟨g, _ | ⟨a8, rest⟩⟩⟩⟩⟩⟩⟩⟩
    · simp at h1
    · rfl
    · rfl
    · rfl
    · rfl
    · rfl
    · rfl
    · rfl
    · simp only [List.length_cons] at h2
      omega
  · intro a0 a1 a2
    rfl

/-- Witness for C5 at the concrete remainder `[10, 20, 30]` over `ℕ`. -/
theorem C5_sum_remaining_8tree_pairing_witness :
    1 ≤ ([10, 20, 30] : List ℕ).length ∧ ([10, 20, 30] : List ℕ).length < 8 ∧
      (sum_remaining_8tree Nat.add [10, 20, 30] = pairFold Nat.add [10, 20, 30] ∧
        ∀ a0 a1 a2 : ℕ,
          sum_remaining_8tree Nat.add [a0, a1, a2] =
            some (Nat.add (Nat.add a0 a1) a2)) :=
  ⟨by decide, by decide,
    C5_sum_remaining_8tree_pairing Nat.add [10, 20, 30] (by decide) (by decide)⟩


/-! ### MessageBuffer (src/unnamed/part_000, lines 28-133)

State of the coalescing sender: the current target rank (`-1` embedded as
`none`), the outbox of (index, value) entries, the inbox map from index to
value, and the `sendBufferClear` flag.  `MAX_MESSAGE_LENGTH` is declared in
the missing header `binary_tree.hpp` and is embedded as a positive parameter
`M`.  Transport calls (`MPI_Isend`, `MPI_Wait`, `MPI_Recv`) only move bytes;
the entries delivered by a receive are an input of `receive`.  Note that
line 1 of the source is `#define NDEBUG`, so every `assert` in this
translation unit is compiled out. -/

structure MBState (α : Type) where
  targetRank : Option ℕ
  outbox : List (ℕ × α)
  inbox : ℕ → Option α
  sendBufferClear : Bool

/-- Embedding of `MessageBuffer::flush`: early return when there is no
target or the outbox is empty (`outbox.size() == 0`); otherwise dispatch,
clearing target and outbox and marking the send buffer in flight. -/
def MessageBuffer.flush {α : Type} (s : MBState α) : MBState α :=
  if s.targetRank = none ∨ s.outbox.length = 0 then s
  else { s with targetRank := none, outbox := [], sendBufferClear := false }

/-- Embedding of `MessageBuffer::wait`: wait on pending requests, then mark
the send buffer clear. -/
def MessageBuffer.wait {α : Type} (s : MBState α) : MBState α :=
  { s with sendBufferClear := true }

/-- Embedding of `MessageBuffer::receive`: insert every received
(index, value) entry into the inbox map. -/
def MessageBuffer.receive {α : Type} (s : MBState α)
    (entries : List (ℕ × α)) : MBState α :=
  { s with
    inbox := entries.foldl
      (fun f e => fun j => if j = e.1 then some e.2 else f j) s.inbox }

/-- `MessageBuffer::put`, first statement: flush when the outbox is full
(`outbox.size() >= MAX_MESSAGE_LENGTH`) or the target changed. -/
def MessageBuffer.putFlushStage {α : Type} (M : ℕ) (s : MBState α)
    (target : ℕ) : MBState α :=
  if M ≤ s.outbox.length ∨ s.targetRank ≠ some target then
    MessageBuffer.flush s
  else s

/-- `MessageBuffer::put`, second statement: wait if the send buffer is
still in flight. -/
def MessageBuffer.putWaitStage {α : Type} (M : ℕ) (s : MBState α)
    (target : ℕ) : MBState α :=
  let s1 := MessageBuffer.putFlushStage M s target
  if s1.sendBufferClear = false then MessageBuffer.wait s1 else s1

/-- `MessageBuffer::put`, third statement: adopt the target if none is
pending. -/
def MessageBuffer.putTargetStage {α : Type} (M : ℕ) (s : MBState α)
    (target : ℕ) : MBState α :=
  let s2 := MessageBuffer.putWaitStage M s target
  if s2.targetRank = none then { s2 with targetRank := some target } else s2

/-- Embedding of `MessageBuffer::put`: the three stages above, then the
append `outbox.push_back(e)`, then a flush when the outbox just became
full. -/
def MessageBuffer.put {α : Type} (M : ℕ) (s : MBState α) (target idx : ℕ)
    (v : α) : MBState α :=
  let s3 := MessageBuffer.putTargetStage M s target
  let s4 := { s3 with outbox := s3.outbox ++ [(idx, v)] }
  if s4.outbox.length = M then MessageBuffer.flush s4 else s4

/-- Embedding of `MessageBuffer::get` as compiled (with `NDEBUG` from line 1
of the source): if the index is in the inbox, consume and return it;
otherwise flush, wait, perform one receive, and read `inbox[index]` — under
`NDEBUG` the `assert(inbox.contains(index))` is a no-op and
`std::map::operator[]` value-initialises the missing entry, so the call
returns the default value (`0.0` for `double`); the final `erase` removes
the freshly inserted entry again, leaving the inbox unchanged. -/
def MessageBuffer.get {α : Type} (dflt : α) (s : MBState α)
    (received : List (ℕ × α)) (idx : ℕ) : α × MBState α :=
  match s.inbox idx with
  | some v =>
    (v, { s with inbox := fun j => if j = idx then none else s.inbox j })
  | none =>
    let s2 := MessageBuffer.receive
      (MessageBuffer.wait (MessageBuffer.flush s)) received
    match s2.inbox idx with
    | some v =>
      (v, { s2 with inbox := fun j => if j = idx then none else s2.inbox j })
    | none => (dflt, s2)

/-- Reachable-state invariant of the outbox: it is never full, and it is
empty exactly when no target is pending. -/
def MBInv {α : Type} (M : ℕ) (s : MBState α) : Prop :=
  s.outbox.length < M ∧ (s.targetRank = none ↔ s.outbox = [])

theorem MB_flush_post {α : Type} (s : MBState α)
    (h : s.targetRank = none ↔ s.outbox = []) :
    (MessageBuffer.flush s).outbox = [] ∧
      (MessageBuffer.flush s).targetRank = none := by
  unfold MessageBuffer.flush
  by_cases hc : s.targetRank = none ∨ s.outbox.length = 0
  · rw [if_pos hc]
    rcases hc with h1 | h1
    · exact ⟨h.mp h1, h1⟩
    · have h2 : s.outbox = [] := List.length_eq_zero.mp h1
      exact ⟨h2, h.mpr h2⟩
  · rw [if_neg hc]
    exact ⟨rfl, rfl⟩

theorem MB_flush_inv {α : Type} (M : ℕ) (hM : 0 < M) (s : MBState α)
    (h : MBInv M s) : MBInv M (MessageBuffer.flush s) := by
  obtain ⟨hpost1, hpost2⟩ := MB_flush_post s h.2
  refine ⟨?_, ?_⟩
  · rw [hpost1]; simpa using hM
  · rw [hpost1, hpost2]
    simp

theorem MB_putFlushStage_spec {α : Type} (M : ℕ) (hM : 0 < M) (s : MBState α)
    (h : MBInv M s) (target : ℕ) :
    (MessageBuffer.putFlushStage M s target).outbox.length < M ∧
      ((MessageBuffer.putFlushStage M s target).targetRank = none ↔
        (MessageBuffer.putFlushStage M s target).outbox = []) ∧
      ((MessageBuffer.putFlushStage M s target).targetRank = none ∨
        (MessageBuffer.putFlushStage M s target).targetRank = some target) := by
  unfold MessageBuffer.putFlushStage
  by_cases hc : M ≤ s.outbox.length ∨ s.targetRank ≠ some target
  · rw [if_pos hc]
    obtain ⟨h1, h2⟩ := MB_flush_post s h.2
    rw [h1, h2]
    simp [hM]
  · rw [if_neg hc]
    push_neg at hc
    exact ⟨by omega, h.2, Or.inr hc.2⟩

theorem MB_putWaitStage_spec {α : Type} (M : ℕ) (s : MBState α) (target : ℕ) :
    (MessageBuffer.putWaitStage M s target).outbox =
        (MessageBuffer.putFlushStage M s target).outbox ∧
      (MessageBuffer.putWaitStage M s target).targetRank =
        (MessageBuffer.putFlushStage M s target).targetRank := by
  unfold MessageBuffer.putWaitStage
  by_cases hb : (MessageBuffer.putFlushStage M s target).sendBufferClear = false
  · rw [if_pos hb]
    exact ⟨rfl, rfl⟩
  · rw [if_neg hb]
    exact ⟨rfl, rfl⟩

theorem MB_putTargetStage_spec {α : Type} (M : ℕ) (hM : 0 < M)
    (s : MBState α) (h : MBInv M s) (target : ℕ) :
    (MessageBuffer.putTargetStage M s target).outbox =
        (MessageBuffer.putFlushStage M s target).outbox ∧
      (MessageBuffer.putTargetStage M s target).targetRank = some target := by
  obtain ⟨hw1, hw2⟩ := MB_putWaitStage_spec M s target
  obtain ⟨hf1, hf2, hf3⟩ := MB_putFlushStage_spec M hM s h target
  unfold MessageBuffer.putTargetStage
  by_cases hb : (MessageBuffer.putWaitStage M s target).targetRank = none
  · rw [if_pos hb]
    exact ⟨hw1, rfl⟩
  · rw [if_neg hb]
    rw [hw2] at hb
    rcases hf3 with h' | h'
    · exact absurd h' hb
    · exact ⟨hw1, hw2.trans h'⟩

theorem MB_put_spec {α : Type} (M : ℕ) (hM : 0 < M) (s : MBState α)
    (h : MBInv M s) (target idx : ℕ) (v : α) :
    (MessageBuffer.put M s target idx v).outbox.length < M ∧
      MBInv M (MessageBuffer.put M s target idx v) := by
  obtain ⟨ht1, ht2⟩ := MB_putTargetStage_spec M hM s h target
  have hf1 := (MB_putFlushStage_spec M hM s h target).1
  rw [← ht1] at hf1
  simp only [MessageBuffer.put]
  set s3 := MessageBuffer.putTargetStage M s target with hs3
  set s4 : MBState α := { s3 with outbox := s3.outbox ++ [(idx, v)] } with hs4
  have h4out : s4.outbox = s3.outbox ++ [(idx, v)] := rfl
  have h4tgt : s4.targetRank = some target := ht2
  have h4ne : s4.outbox ≠ [] := by rw [h4out]; simp
  have hiff4 : s4.targetRank = none ↔ s4.outbox = [] := by
    rw [h4tgt]
    simp [h4ne]
  have hlen4 : s4.outbox.length = s3.outbox.length + 1 := by rw [h4out]; simp
  by_cases hfull : s4.outbox.length = M
  · rw [if_pos hfull]
    obtain ⟨hp1, hp2⟩ := MB_flush_post s4 hiff4
    have hlen0 : (MessageBuffer.flush s4).outbox.length < M := by
      rw [hp1]; simpa using hM
    refine ⟨hlen0, hlen0, ?_⟩
    rw [hp1, hp2]
    simp
  · rw [if_neg hfull]
    have hlen : s4.outbox.length < M := by omega
    exact ⟨hlen, hlen, hiff4⟩

theorem MB_wait_inv {α : Type} (M : ℕ) (s : MBState α) (h : MBInv M s) :
    MBInv M (MessageBuffer.wait s) := h

theorem MB_receive_inv {α : Type} (M : ℕ) (s : MBState α) (h : MBInv M s)
    (entries : List (ℕ × α)) : MBInv M (MessageBuffer.receive s entries) := h

/-- C9: on every reachable MessageBuffer state (the invariant `MBInv` holds
for the freshly constructed buffer and is preserved by every operation),
`put` leaves strictly fewer than `MAX_MESSAGE_LENGTH` outbox entries,
`flush` leaves an empty outbox with no pending target, and `put` never
appends to a full outbox: at the moment of the append the outbox is below
capacity. -/
theorem C9_outbox_never_overflows (α : Type) (M : ℕ) (hM : 0 < M)
    (s : MBState α) (hs : MBInv M s) :
    (∀ target idx : ℕ, ∀ v : α,
        (MessageBuffer.put M s target idx v).outbox.length < M ∧
        MBInv M (MessageBuffer.put M s target idx v) ∧
        (MessageBuffer.putFlushStage M s target).outbox.length < M) ∧
      ((MessageBuffer.flush s).outbox = [] ∧
        (MessageBuffer.flush s).targetRank = none ∧
        MBInv M (MessageBuffer.flush s)) ∧
      MBInv M (MessageBuffer.wait s) ∧
      (∀ entries, MBInv M (MessageBuffer.receive s entries)) ∧
      MBInv M (MBState.mk (α := α) none [] (fun _ => none) true) := by
  refine ⟨?_, ⟨?_, ?_, ?_⟩, ?_, ?_, ?_⟩
  · intro target idx v
    obtain ⟨hp1, hp2⟩ := MB_put_spec M hM s hs target idx v
    exact ⟨hp1, hp2, (MB_putFlushStage_spec M hM s hs target).1⟩
  · exact (MB_flush_post s hs.2).1
  · exact (MB_flush_post s hs.2).2
  · exact MB_flush_inv M hM s hs
  · exact MB_wait_inv M s hs
  · exact fun entries => MB_receive_inv M s hs entries
  · exact ⟨by simpa using hM, by simp⟩

/-- Witness for C9: the freshly constructed MessageBuffer state with
`MAX_MESSAGE_LENGTH = 4` over `ℤ` values, exercising a `put`. -/
theorem C9_outbox_never_overflows_witness :
    0 < 4 ∧ MBInv 4 (MBState.mk (α := ℤ) none [] (fun _ => none) true) ∧
      (MessageBuffer.put 4 (MBState.mk (α := ℤ) none [] (fun _ => none) true)
          2 5 (7 : ℤ)).outbox.length < 4 := by
  have hM : (0 : ℕ) < 4 := by decide
  have hs : MBInv 4 (MBState.mk (α := ℤ) none [] (fun _ => none) true) := by
    refine ⟨by decide, by simp⟩
  have h := C9_outbox_never_overflows ℤ 4 hM _ hs
  exact ⟨hM, hs, (h.1 2 5 7).1⟩

/-- C6 counterexample: the source defines `NDEBUG` on line 1, so the
`assert(inbox.contains(index))` in `MessageBuffer::get` is compiled out.
On a buffer whose inbox does not contain index 7 and whose one receive
delivers nothing, `get` returns the value-initialised `0.0`
(embedded over `ℤ`: the default value `0`) — a fabricated value for an
index that was never received, with no fatal error surfaced. -/
theorem C6_get_fabricates_value_counterexample :
    (MBState.mk (α := ℤ) none [] (fun _ => none) true).inbox 7 = none ∧
      (MessageBuffer.receive
        (MessageBuffer.wait
          (MessageBuffer.flush (MBState.mk (α := ℤ) none [] (fun _ => none) true)))
        []).inbox 7 = none ∧
      (MessageBuffer.get (0 : ℤ)
        (MBState.mk none [] (fun _ => none) true) [] 7).1 = 0 := by
  exact ⟨rfl, rfl, rfl⟩

/-- C6 (amended): in the `NDEBUG` build embedded here, when `get` cannot
find the requested index after one receive it does not surface a fatal
error; the disabled assertion falls through to `inbox[index]`, which
value-initialises the entry, so `get` returns the default value (`0.0`)
for an index that was never received. -/
theorem C6_get_ndebug_returns_default (α : Type) (dflt : α) (s : MBState α)
    (received : List (ℕ × α)) (idx : ℕ)
    (h1 : s.inbox idx = none)
    (h2 : (MessageBuffer.receive (MessageBuffer.wait (MessageBuffer.flush s))
        received).inbox idx = none) :
    MessageBuffer.get dflt s received idx =
      (dflt,
        MessageBuffer.receive (MessageBuffer.wait (MessageBuffer.flush s))
          received) := by
  unfold MessageBuffer.get
  simp only [h1, h2]

/-- Witness for C6's amended theorem: initial buffer, one receive
delivering only index 3, request for index 7. -/
theorem C6_get_ndebug_returns_default_witness :
    (MBState.mk (α := ℤ) none [] (fun _ => none) true).inbox 7 = none ∧
      (MessageBuffer.receive
        (MessageBuffer.wait
          (MessageBuffer.flush (MBState.mk (α := ℤ) none [] (fun _ => none) true)))
        [(3, (5 : ℤ))]).inbox 7 = none ∧
      MessageBuffer.get (0 : ℤ) (MBState.mk none [] (fun _ => none) true)
          [(3, (5 : ℤ))] 7 =
        (0,
          MessageBuffer.receive
            (MessageBuffer.wait
              (MessageBuffer.flush (MBState.mk none [] (fun _ => none) true)))
            [(3, (5 : ℤ))]) :=
  ⟨rfl, rfl,
    C6_get_ndebug_returns_default ℤ 0 (MBState.mk none [] (fun _ => none) true)
      [(3, (5 : ℤ))] 7 rfl rfl⟩

/-! ### The operation program (src/src/allreduce_summation.cpp, lines 238-273)

`DualTreeSummation::execute_operations` interprets a postfix program of
PUSH/REDUCE tokens over the inbox array and a LIFO stack.  The C++ stack
grows at the back of a vector; the embedding keeps the most recent entry at
the head of `rstack` and reverses on return, so the returned list is in the
vector (bottom-to-top) order that `send_outgoing_values` transmits.  The
`MPI_Wait` bookkeeping inside the PUSH branch only blocks until the inbox
slot is valid; it does not change which value is consumed.  A REDUCE on a
stack with fewer than two entries (undefined behaviour on the C++ vector,
asserted only under `DEBUG_TRACE`) and a PUSH past the end of the inbox are
embedded as `none`. -/

inductive SumOp where
  | push : SumOp
  | reduce : SumOp
deriving DecidableEq

/-- Interpreter loop of `execute_operations`: PUSH moves the next inbox
value onto the stack, REDUCE pops `b` (the back) then `a` and pushes
`a + b`. -/
def execOps {α : Type} (add : α → α → α) :
    List SumOp → List α → List α → Option (List α)
  | [], _, rstack => some rstack.reverse
  | SumOp.push :: ops, inbox, rstack =>
    match inbox with
    | [] => none
    | x :: rest => execOps add ops rest (x :: rstack)
  | SumOp.reduce :: ops, inbox, rstack =>
    match rstack with
    | b :: a :: rest => execOps add ops inbox (add a b :: rest)
    | _ => none

/-- Embedding of `DualTreeSummation::execute_operations`: run the program
on an empty stack; the result is the final stack in bottom-to-top order. -/
def execute_operations {α : Type} (add : α → α → α) (ops : List SumOp)
    (inbox : List α) : Option (List α) :=
  execOps add ops inbox []

/-- Modelled from the spec: the shape of one outgoing subtree restricted to
the values the process pushes (local subtree sums and incoming partial
sums).  `DualTreeTopology::compute_operations` is not under `src/`; §4.3
item 5 of the spec describes the program as a postfix compilation of a
depth-first left-to-right traversal of these trees. -/
inductive RTree where
  | leaf : RTree
  | node : RTree → RTree → RTree

/-- Modelled from the spec: postfix compilation — PUSH at each leaf of the
walk, REDUCE at each internal node after both children (§4.3 item 5). -/
def compileOps : RTree → List SumOp
  | RTree.leaf => [SumOp.push]
  | RTree.node l r => compileOps l ++ compileOps r ++ [SumOp.reduce]

/-- Modelled from the spec: the whole operation program is the concatenation
of the per-outgoing-coordinate programs, in ascending global-index order. -/
def compileForest (ts : List RTree) : List SumOp :=
  (ts.map compileOps).flatten

/-- Number of PUSH tokens a tree contributes. -/
def leafCount : RTree → ℕ
  | RTree.leaf => 1
  | RTree.node l r => leafCount l + leafCount r


/-- Reference evaluation of one tree against a prefix of the inbox:
returns the reduced value and the unconsumed inbox suffix. -/
def treeEval {α : Type} (add : α → α → α) :
    RTree → List α → Option (α × List α)
  | RTree.leaf, vs =>
    match vs with
    | [] => none
    | v :: rest => some (v, rest)
  | RTree.node l r, vs =>
    (treeEval add l vs).bind fun p =>
      (treeEval add r p.2).map fun q => (add p.1 q.1, q.2)

/-- Reference evaluation of a forest: one value per tree, in order. -/
def forestEval {α : Type} (add : α → α → α) :
    List RTree → List α → Option (List α)
  | [], _ => some []
  | t :: ts, vs =>
    (treeEval add t vs).bind fun p =>
      (forestEval add ts p.2).map fun tail => p.1 :: tail

theorem execOps_compile_some {α : Type} (add : α → α → α) :
    ∀ (t : RTree) (ops : List SumOp) (vs rstack : List α) (a : α)
      (rest : List α), treeEval add t vs = some (a, rest) →
      execOps add (compileOps t ++ ops) vs rstack =
        execOps add ops rest (a :: rstack) := by
  intro t
  induction t with
  | leaf =>
    intro ops vs rstack a rest h
    cases vs with
    | nil => simp [treeEval] at h
    | cons v tail =>
      simp only [treeEval, Option.some.injEq, Prod.mk.injEq] at h
      obtain ⟨rfl, rfl⟩ := h
      rfl
  | node l r ihl ihr =>
    intro ops vs rstack a rest h
    simp only [treeEval] at h
    cases hl : treeEval add l vs with
    | none => rw [hl] at h; simp at h
    | some p =>
      obtain ⟨b1, vs1⟩ := p
      rw [hl] at h
      simp only [Option.some_bind] at h
      cases hr : treeEval add r vs1 with
      | none => rw [hr] at h; simp at h
      | some q =>
        obtain ⟨b2, vs2⟩ := q
        rw [hr] at h
        simp only [Option.map_some', Option.some.injEq, Prod.mk.injEq] at h
        obtain ⟨rfl, rfl⟩ := h
        simp only [compileOps, List.append_assoc]
        rw [ihl _ _ _ _ _ hl, ihr _ _ _ _ _ hr]
        rfl

theorem execOps_compileForest_some {α : Type} (add : α → α → α) :
    ∀ (ts : List RTree) (vs rstack vals : List α),
      forestEval add ts vs = some vals →
      execOps add (compileForest ts) vs rstack =
        some (rstack.reverse ++ vals) := by
  intro ts
  induction ts with
  | nil =>
    intro vs rstack vals h
    simp only [forestEval, Option.some.injEq] at h
    subst h
    simp [compileForest, execOps]
  | cons t ts ih =>
    intro vs rstack vals h
    simp only [forestEval] at h
    cases ht : treeEval add t vs with
    | none => rw [ht] at h; simp at h
    | some p =>
      obtain ⟨a, rest⟩ := p
      rw [ht] at h
      simp only [Option.some_bind] at h
      cases hf : forestEval add ts rest with
      | none => rw [hf] at h; simp at h
      | some tail =>
        rw [hf] at h
        simp only [Option.map_some', Option.some.injEq] at h
        subst h
        have hjoin : compileForest (t :: ts) = compileOps t ++ compileForest ts := by
          simp [compileForest]
        rw [hjoin, execOps_compile_some add t _ _ _ _ _ ht, ih _ _ _ hf]
        simp

theorem treeEval_total {α : Type} (add : α → α → α) :
    ∀ (t : RTree) (vs : List α), leafCount t ≤ vs.length →
      ∃ a, treeEval add t vs = some (a, vs.drop (leafCount t)) := by
  intro t
  induction t with
  | leaf =>
    intro vs h
    cases vs with
    | nil => simp [leafCount] at h
    | cons v rest => exact ⟨v, rfl⟩
  | node l r ihl ihr =>
    intro vs h
    simp only [leafCount] at h
    obtain ⟨a, ha⟩ := ihl vs (by omega)
    obtain ⟨b, hb⟩ := ihr (vs.drop (leafCount l)) (by simp; omega)
    refine ⟨add a b, ?_⟩
    simp only [treeEval, ha, Option.some_bind, hb, Option.map_some', leafCount,
      List.drop_drop]

theorem forestEval_total {α : Type} (add : α → α → α) :
    ∀ (ts : List RTree) (vs : List α),
      (ts.map leafCount).sum ≤ vs.length →
      ∃ vals, forestEval add ts vs = some vals ∧ vals.length = ts.length := by
  intro ts
  induction ts with
  | nil => intro vs _; exact ⟨[], rfl, rfl⟩
  | cons t ts ih =>
    intro vs h
    simp only [List.map_cons, List.sum_cons] at h
    obtain ⟨a, ha⟩ := treeEval_total add t vs (by omega)
    obtain ⟨vals, hv, hlen⟩ := ih (vs.drop (leafCount t)) (by simp; omega)
    refine ⟨a :: vals, ?_, by simp [hlen]⟩
    simp only [forestEval, ha, Option.some_bind, hv, Option.map_some']

/-- C4: executing the compiled postfix program against the inbox on a LIFO
stack — PUSH moves the next inbox value onto the stack, REDUCE pops `b`
then `a` and pushes `a + b` — terminates (no stack underflow, `some`
result) with exactly one stack entry per outgoing tree, in program order
(the order the comm-parent expects), each entry being the depth-first
reduction of its tree; a root process compiles a single tree and ends with
exactly one entry. -/
theorem C4_execute_operations_one_entry_per_outgoing (α : Type)
    (add : α → α → α) (ts : List RTree) (inbox : List α)
    (h : (ts.map leafCount).sum ≤ inbox.length) :
    ∃ vals, execute_operations add (compileForest ts) inbox = some vals ∧
      forestEval add ts inbox = some vals ∧
      vals.length = ts.length ∧
      (∀ t, ts = [t] → vals.length = 1) := by
  obtain ⟨vals, hv, hlen⟩ := forestEval_total add ts inbox h
  refine ⟨vals, ?_, hv, hlen, ?_⟩
  · unfold execute_operations
    rw [execOps_compileForest_some add ts inbox [] vals hv]
    simp
  · intro t ht
    subst ht
    simpa using hlen

/-- Witness for C4: two outgoing trees (a height-1 node and a leaf) against
the inbox `[1, 2, 3]` over `ℕ`. -/
theorem C4_execute_operations_one_entry_per_outgoing_witness :
    ((([RTree.node RTree.leaf RTree.leaf, RTree.leaf] : List RTree).map
        leafCount).sum ≤ ([1, 2, 3] : List ℕ).length) ∧
      ∃ vals,
        execute_operations Nat.add
            (compileForest [RTree.node RTree.leaf RTree.leaf, RTree.leaf])
            [1, 2, 3] = some vals ∧
        forestEval Nat.add [RTree.node RTree.leaf RTree.leaf, RTree.leaf]
            [1, 2, 3] = some vals ∧
        vals.length = 2 ∧
        (∀ t, [RTree.node RTree.leaf RTree.leaf, RTree.leaf] = [t] →
          vals.length = 1) :=
  ⟨by decide,
    C4_execute_operations_one_entry_per_outgoing ℕ Nat.add
      [RTree.node RTree.leaf RTree.leaf, RTree.leaf] [1, 2, 3] (by decide)⟩

/-! ### Regions, normalisation and rank order
(src/src/allreduce_summation.cpp, lines 294-335)

The `region` type (header not under `src/`, but its two fields are evident
from every use) is a start index and a size;  `total_region_size` sums the
sizes.  `compute_normalized_regions` replaces every empty region by the
sentinel `(global_size, 0)`.  `compute_rank_order` sorts the rank numbers
by ascending normalized region start (`std::sort`; embedded with
`mergeSort`, which agrees with any comparison sort on the sortedness and
permutation properties stated below) and, when the first sorted rank has an
empty region, swaps the first rank owning elements to the front
(`std::iter_swap`); when no rank owns elements the source dereferences the
end iterator (the `assert` is compiled out), embedded as `none`. -/

structure Region where
  globalStartIndex : ℕ
  size : ℕ
deriving DecidableEq

/-- Embedding of `total_region_size`. -/
def total_region_size (rs : List Region) : ℕ := (rs.map Region.size).sum

/-- Embedding of `DualTreeSummation::compute_normalized_regions`. -/
def compute_normalized_regions (rs : List Region) : List Region :=
  rs.map (fun r => if r.size = 0 then Region.mk (total_region_size rs) 0 else r)

/-- Does region `r` contain array index `i`. -/
def regionCovers (r : Region) (i : ℕ) : Bool :=
  decide (r.globalStartIndex ≤ i ∧ i < r.globalStartIndex + r.size)

/-- The regions tile `[0, N)` exactly: sizes sum to `N`, every non-empty
region stays inside `[0, N)`, and every index below `N` is covered by
exactly one region. -/
def regionsTile (rs : List Region) (N : ℕ) : Prop :=
  total_region_size rs = N ∧
  (∀ r ∈ rs, r.size = 0 ∨ r.globalStartIndex + r.size ≤ N) ∧
  (∀ i, i < N → rs.countP (fun r => regionCovers r i) = 1)

instance regionsTileDecidable (rs : List Region) (N : ℕ) :
    Decidable (regionsTile rs N) := by
  unfold regionsTile
  infer_instance

/-- Sort key of `compute_rank_order`: the region start of rank `a`. -/
def rank_order_key (rs : List Region) (a : ℕ) : ℕ :=
  (rs.getD a (Region.mk 0 0)).globalStartIndex

/-- The sorted rank list (`std::iota` then `std::sort` by region start). -/
def rank_order_sorted (rs : List Region) : List ℕ :=
  (List.range rs.length).mergeSort
    (fun a b => decide (rank_order_key rs a ≤ rank_order_key rs b))

/-- Embedding of `DualTreeSummation::compute_rank_order` (applied to the
normalized regions, as the constructor does): sort, then promote the first
rank owning elements if the front rank's region is empty; `none` embeds the
end-iterator dereference when no rank owns elements. -/
def compute_rank_order (rs : List Region) : Option (List ℕ) :=
  if (rs.getD ((rank_order_sorted rs).headD 0) (Region.mk 0 0)).size = 0 then
    match (rank_order_sorted rs).findIdx?
        (fun a => decide ((rs.getD a (Region.mk 0 0)).size ≠ 0)) with
    | none => none
    | some k =>
      some (((rank_order_sorted rs).set 0 ((rank_order_sorted rs).getD k 0)).set
        k ((rank_order_sorted rs).getD 0 0))
  else some (rank_order_sorted rs)

/-- C8 counterexample: for the tiling of `N = 0` by the single empty region
`(0,0)`, `compute_rank_order` finds no rank to promote and fails (the
source dereferences `rank_order.end()`), so no permutation with a non-empty
region in array position 0 is returned. -/
theorem C8_rank_order_counterexample :
    regionsTile [Region.mk 0 0] 0 ∧
      compute_rank_order (compute_normalized_regions [Region.mk 0 0]) = none := by
  constructor
  · refine ⟨rfl, ?_, ?_⟩
    · intro r hr
      rcases List.mem_singleton.mp hr with rfl
      exact Or.inl rfl
    · intro i hi
      omega
  · have horder : rank_order_sorted (compute_normalized_regions [Region.mk 0 0]) = [0] := by
      have hp := List.mergeSort_perm
        (List.range (compute_normalized_regions [Region.mk 0 0]).length)
        (fun a b => decide (rank_order_key (compute_normalized_regions [Region.mk 0 0]) a ≤
          rank_order_key (compute_normalized_regions [Region.mk 0 0]) b))
      have hr1 : List.range (compute_normalized_regions [Region.mk 0 0]).length = [0] := rfl
      rw [hr1] at hp
      exact List.perm_singleton.mp hp
    unfold compute_rank_order
    rw [horder]
    rfl

/-- C8 (amended: at least one region is non-empty, i.e. `0 < N`):
`compute_rank_order`, applied to the normalized regions of a tiling of
`[0, N)`, returns a permutation of the ranks sorted by ascending region
start, with every empty region (sentinel start `N`) after every non-empty
one, and the rank in array position 0 owns the region starting at 0, which
is non-empty (when the front rank were empty, the promotion branch would
swap the first non-empty rank to position 0; under the normalization this
branch is not reached because the unique region starting at 0 sorts
first). -/
theorem C8_rank_order_sorted_first_nonempty (rs : List Region) (N : ℕ)
    (hN : 0 < N) (ht : regionsTile rs N) :
    ∃ order, compute_rank_order (compute_normalized_regions rs) = some order ∧
      order.Perm (List.range rs.length) ∧
      order.Pairwise (fun a b =>
        ((compute_normalized_regions rs).getD a (Region.mk 0 0)).globalStartIndex ≤
          ((compute_normalized_regions rs).getD b (Region.mk 0 0)).globalStartIndex) ∧
      order.Pairwise (fun a b =>
        ((compute_normalized_regions rs).getD a (Region.mk 0 0)).size = 0 →
          ((compute_normalized_regions rs).getD b (Region.mk 0 0)).size = 0) ∧
      0 < ((compute_normalized_regions rs).getD (order.headD 0) (Region.mk 0 0)).size ∧
      ((compute_normalized_regions rs).getD (order.headD 0)
        (Region.mk 0 0)).globalStartIndex = 0 := by
  obtain ⟨htot, hbound, hcover⟩ := ht
  have hlen : (compute_normalized_regions rs).length = rs.length := by
    simp [compute_normalized_regions]
  have hn_at : ∀ j, j < rs.length →
      (compute_normalized_regions rs).getD j (Region.mk 0 0) =
        if (rs.getD j (Region.mk 0 0)).size = 0 then Region.mk N 0
        else rs.getD j (Region.mk 0 0) := by
    intro j hj
    have hj' : j < (compute_normalized_regions rs).length := by omega
    rw [List.getD_eq_getElem _ _ hj', List.getD_eq_getElem _ _ hj]
    simp only [compute_normalized_regions, List.getElem_map, htot]
  have hmem_getD : ∀ j, j < rs.length → rs.getD j (Region.mk 0 0) ∈ rs := by
    intro j hj
    rw [List.getD_eq_getElem _ _ hj]
    exact List.getElem_mem _
  have hempty_start : ∀ j, j < rs.length →
      ((compute_normalized_regions rs).getD j (Region.mk 0 0)).size = 0 →
      ((compute_normalized_regions rs).getD j (Region.mk 0 0)).globalStartIndex = N := by
    intro j hj hz
    rw [hn_at j hj] at hz ⊢
    by_cases hc : (rs.getD j (Region.mk 0 0)).size = 0
    · rw [if_pos hc]
    · rw [if_neg hc] at hz ⊢
      exact absurd hz hc
  have hnonempty_bound : ∀ j, j < rs.length →
      0 < ((compute_normalized_regions rs).getD j (Region.mk 0 0)).size →
      ((compute_normalized_regions rs).getD j (Region.mk 0 0)).globalStartIndex +
        ((compute_normalized_regions rs).getD j (Region.mk 0 0)).size ≤ N := by
    intro j hj hpos
    rw [hn_at j hj] at hpos ⊢
    by_cases hc : (rs.getD j (Region.mk 0 0)).size = 0
    · rw [if_pos hc] at hpos
      simp at hpos
    · rw [if_neg hc] at hpos ⊢
      rcases hbound _ (hmem_getD j hj) with h' | h'
      · exact absurd h' hc
      · exact h'
  have hex : ∃ j0, j0 < rs.length ∧
      ((compute_normalized_regions rs).getD j0 (Region.mk 0 0)).globalStartIndex = 0 ∧
      0 < ((compute_normalized_regions rs).getD j0 (Region.mk 0 0)).size := by
    have hc1 := hcover 0 hN
    have hpos : 0 < rs.countP (fun r => regionCovers r 0) := by omega
    obtain ⟨r, hrmem, hrp⟩ := List.countP_pos_iff.mp hpos
    have hr0 : r.globalStartIndex = 0 ∧ 0 < r.size := by
      simp only [regionCovers, decide_eq_true_eq] at hrp
      omega
    obtain ⟨j0, hj0, hjeq⟩ := List.mem_iff_getElem.mp hrmem
    have hgd : rs.getD j0 (Region.mk 0 0) = r := by
      rw [List.getD_eq_getElem _ _ hj0, hjeq]
    refine ⟨j0, hj0, ?_, ?_⟩
    · rw [hn_at j0 hj0, hgd, if_neg (by omega)]
      exact hr0.1
    · rw [hn_at j0 hj0, hgd, if_neg (by omega)]
      exact hr0.2
  have hperm : (rank_order_sorted (compute_normalized_regions rs)).Perm
      (List.range rs.length) := by
    unfold rank_order_sorted
    rw [hlen]
    exact List.mergeSort_perm _ _
  have hsortedb := @List.sorted_mergeSort ℕ
    (fun a b => decide (rank_order_key (compute_normalized_regions rs) a ≤
      rank_order_key (compute_normalized_regions rs) b))
    (fun a b c hab hbc => by
      simp only [decide_eq_true_eq] at hab hbc ⊢
      omega)
    (fun a b => by
      simp only [Bool.or_eq_true, decide_eq_true_eq]
      omega)
    (List.range (compute_normalized_regions rs).length)
  have hsorted : (rank_order_sorted (compute_normalized_regions rs)).Pairwise
      (fun a b => rank_order_key (compute_normalized_regions rs) a ≤
        rank_order_key (compute_normalized_regions rs) b) :=
    hsortedb.imp (fun h => by simpa using h)
  have hmem_lt : ∀ a ∈ rank_order_sorted (compute_normalized_regions rs),
      a < rs.length := by
    intro a ha
    exact List.mem_range.mp (hperm.mem_iff.mp ha)
  obtain ⟨j0, hj0lt, hj0start, hj0size⟩ := hex
  have hj0mem : j0 ∈ rank_order_sorted (compute_normalized_regions rs) :=
    hperm.mem_iff.mpr (List.mem_range.mpr hj0lt)
  obtain ⟨h0, tl, hS⟩ : ∃ h0 tl,
      rank_order_sorted (compute_normalized_regions rs) = h0 :: tl := by
    cases hSc : rank_order_sorted (compute_normalized_regions rs) with
    | nil =>
      rw [hSc] at hj0mem
      simp at hj0mem
    | cons x xs => exact ⟨x, xs, rfl⟩
  have hh0_le : ∀ x ∈ rank_order_sorted (compute_normalized_regions rs),
      rank_order_key (compute_normalized_regions rs) h0 ≤
        rank_order_key (compute_normalized_regions rs) x := by
    intro x hx
    rw [hS] at hx
    rcases List.mem_cons.mp hx with rfl | hx'
    · exact le_refl _
    · rw [hS] at hsorted
      exact (List.pairwise_cons.mp hsorted).1 x hx'
  have hkey0 : rank_order_key (compute_normalized_regions rs) h0 = 0 := by
    have h1 := hh0_le j0 hj0mem
    unfold rank_order_key at h1 ⊢
    omega
  have hh0lt : h0 < rs.length := by
    refine hmem_lt h0 ?_
    rw [hS]
    exact List.mem_cons_self _ _
  have hh0size : 0 < ((compute_normalized_regions rs).getD h0 (Region.mk 0 0)).size := by
    by_contra hcon
    have hz : ((compute_normalized_regions rs).getD h0 (Region.mk 0 0)).size = 0 := by
      omega
    have hsN := hempty_start h0 hh0lt hz
    unfold rank_order_key at hkey0
    omega
  have hcond : ¬ ((compute_normalized_regions rs).getD
      ((rank_order_sorted (compute_normalized_regions rs)).headD 0)
      (Region.mk 0 0)).size = 0 := by
    rw [hS]
    simp only [List.headD_cons]
    omega
  refine ⟨rank_order_sorted (compute_normalized_regions rs), ?_, hperm, hsorted,
    ?_, ?_, ?_⟩
  · unfold compute_rank_order
    rw [if_neg hcond]
  · refine List.Pairwise.imp_of_mem ?_ hsorted
    intro a b ha hb hab hza
    have halt := hmem_lt a ha
    have hblt := hmem_lt b hb
    have hsa := hempty_start a halt hza
    by_contra hzb
    have hbpos : 0 < ((compute_normalized_regions rs).getD b (Region.mk 0 0)).size := by
      omega
    have hbb := hnonempty_bound b hblt hbpos
    unfold rank_order_key at hab
    omega
  · rw [hS]
    simp only [List.headD_cons]
    exact hh0size
  · rw [hS]
    simp only [List.headD_cons]
    unfold rank_order_key at hkey0
    exact hkey0

/-- Witness for C8 on the shuffled tiling of `[0, 4)` by ranks owning
`[2,4)`, `[0,2)` and an empty region. -/
theorem C8_rank_order_sorted_first_nonempty_witness :
    0 < 4 ∧ regionsTile [Region.mk 2 2, Region.mk 0 2, Region.mk 7 0] 4 ∧
      ∃ order, compute_rank_order
          (compute_normalized_regions
            [Region.mk 2 2, Region.mk 0 2, Region.mk 7 0]) = some order ∧
        order.Perm (List.range 3) ∧
        order.Pairwise (fun a b =>
          ((compute_normalized_regions
            [Region.mk 2 2, Region.mk 0 2, Region.mk 7 0]).getD a
              (Region.mk 0 0)).globalStartIndex ≤
            ((compute_normalized_regions
              [Region.mk 2 2, Region.mk 0 2, Region.mk 7 0]).getD b
                (Region.mk 0 0)).globalStartIndex) ∧
        order.Pairwise (fun a b =>
          ((compute_normalized_regions
            [Region.mk 2 2, Region.mk 0 2, Region.mk 7 0]).getD a
              (Region.mk 0 0)).size = 0 →
            ((compute_normalized_regions
              [Region.mk 2 2, Region.mk 0 2, Region.mk 7 0]).getD b
                (Region.mk 0 0)).size = 0) ∧
        0 < ((compute_normalized_regions
          [Region.mk 2 2, Region.mk 0 2, Region.mk 7 0]).getD (order.headD 0)
            (Region.mk 0 0)).size ∧
        ((compute_normalized_regions
          [Region.mk 2 2, Region.mk 0 2, Region.mk 7 0]).getD (order.headD 0)
            (Region.mk 0 0)).globalStartIndex = 0 :=
  ⟨by decide, by decide,
    C8_rank_order_sorted_first_nonempty
      [Region.mk 2 2, Region.mk 0 2, Region.mk 7 0] 4 (by decide) (by decide)⟩

/-! ### Floor and ceiling base-2 logarithms

`BinaryTreeSummation::accumulate` computes `ceil(log2(globalSize))` and
`log2(subtree_size(index))` with floating-point `log2`; on the powers of
two and the sizes in range these agree with the exact integer functions
below (fuel-based so they evaluate by `decide`). -/

/-- Fuel-driven floor log2 (0 for inputs below 2). -/
def log2F : ℕ → ℕ → ℕ
  | 0, _ => 0
  | f + 1, n => if n ≤ 1 then 0 else log2F f (n / 2) + 1

/-- Floor of log2. -/
def flog2 (n : ℕ) : ℕ := log2F n n

/-- Ceiling of log2 (0 for inputs below 2). -/
def clog2 (n : ℕ) : ℕ := if n ≤ 1 then 0 else flog2 (n - 1) + 1

theorem log2F_congr : ∀ f f' n, n ≤ f → n ≤ f' → log2F f n = log2F f' n := by
  intro f
  induction f with
  | zero =>
    intro f' n h h'
    have hn : n = 0 := by omega
    subst hn
    cases f' <;> simp [log2F]
  | succ f ih =>
    intro f' n h h'
    match f' with
    | 0 =>
      have hn : n = 0 := by omega
      simp [hn, log2F]
    | f' + 1 =>
      simp only [log2F]
      by_cases hc : n ≤ 1
      · rw [if_pos hc, if_pos hc]
      · rw [if_neg hc, if_neg hc, ih f' (n / 2) (by omega) (by omega)]

theorem flog2_rec {n : ℕ} (h : 2 ≤ n) : flog2 n = flog2 (n / 2) + 1 := by
  unfold flog2
  obtain ⟨m, rfl⟩ : ∃ m, n = m + 2 := ⟨n - 2, by omega⟩
  have hstep : log2F (m + 2) (m + 2) = log2F (m + 1) ((m + 2) / 2) + 1 := by
    have hcond : ¬ (m + 2 ≤ 1) := by omega
    simp only [log2F, if_neg hcond]
  rw [hstep]
  congr 1
  exact log2F_congr (m + 1) ((m + 2) / 2) ((m + 2) / 2) (by omega) (le_refl _)

theorem flog2_small {n : ℕ} (h : n ≤ 1) : flog2 n = 0 := by
  interval_cases n <;> rfl

theorem flog2_two_pow : ∀ t : ℕ, flog2 (2 ^ t) = t := by
  intro t
  induction t with
  | zero => rfl
  | succ t ih =>
    have h2 : 2 ≤ 2 ^ (t + 1) := by
      have := Nat.two_pow_pos t
      have : (2 : ℕ) ^ (t + 1) = 2 * 2 ^ t := by ring
      omega
    rw [flog2_rec h2]
    have hdiv : 2 ^ (t + 1) / 2 = 2 ^ t := by
      have : (2 : ℕ) ^ (t + 1) = 2 * 2 ^ t := by ring
      omega
    rw [hdiv, ih]

theorem flog2_lt : ∀ n : ℕ, 1 ≤ n → n < 2 ^ (flog2 n + 1) := by
  intro n
  induction n using Nat.strong_induction_on with
  | _ n ih =>
    intro h1
    by_cases hc : n ≤ 1
    · have : n = 1 := by omega
      subst this
      simp [flog2_small]
    · have h2 : 2 ≤ n := by omega
      rw [flog2_rec h2]
      have hrec := ih (n / 2) (by omega) (by omega)
      have hp : (2 : ℕ) ^ (flog2 (n / 2) + 1 + 1) = 2 * 2 ^ (flog2 (n / 2) + 1) := by
        ring
      omega

theorem clog2_ge {n : ℕ} (h : 1 ≤ n) : n ≤ 2 ^ clog2 n := by
  unfold clog2
  by_cases hc : n ≤ 1
  · rw [if_pos hc]
    simpa using hc
  · rw [if_neg hc]
    have := flog2_lt (n - 1) (by omega)
    omega

/-- Wrap-accurate `uint64_t` subtraction. -/
def u64sub (a b : ℕ) : ℕ := (a + 2 ^ 64 - b) % 2 ^ 64

theorem u64sub_eq {a b : ℕ} (ha : a < 2 ^ 64) (hb : b ≤ a) :
    u64sub a b = a - b := by
  unfold u64sub
  omega

/-! ### The reference index-tree value

`treeVal add A x h` is the value of the reduction-tree node rooted at `x`
with height `h`, truncated at the end of the array: a right child starting
at or beyond `A.length` is empty and the left child's value passes through
unchanged.  This is the common reference against which both the
single-process and the distributed runs are proved equal. -/

def treeVal {α : Type} (add : α → α → α) (A : List α) : ℕ → ℕ → Option α
  | x, 0 => A[x]?
  | x, h + 1 =>
    if A.length ≤ x + 2 ^ h then treeVal add A x h
    else
      match treeVal add A x h, treeVal add A (x + 2 ^ h) h with
      | some a, some b => some (add a b)
      | _, _ => none

theorem treeVal_total {α : Type} (add : α → α → α) (A : List α) :
    ∀ (h x : ℕ), x < A.length → ∃ v, treeVal add A x h = some v := by
  intro h
  induction h with
  | zero =>
    intro x hx
    exact ⟨A[x], by simp [treeVal, List.getElem?_eq_getElem hx]⟩
  | succ h ih =>
    intro x hx
    by_cases hc : A.length ≤ x + 2 ^ h
    · obtain ⟨v, hv⟩ := ih x hx
      exact ⟨v, by simp [treeVal, if_pos hc, hv]⟩
    · obtain ⟨a, ha⟩ := ih x hx
      obtain ⟨b, hb⟩ := ih (x + 2 ^ h) (by omega)
      refine ⟨add a b, ?_⟩
      simp [treeVal, if_neg hc, ha, hb]

/-! ### The vectorized local accumulator of `BinaryTreeSummation`
(src/unnamed/part_000, lines 294-354)

One AVX block reduces eight consecutive values.  Following the intrinsics:
`_mm256_hadd_pd(a, b)` with `a = [s0,s1,s2,s3]` and `b = [s4,s5,s6,s7]`
yields `[s1+s0, s5+s4, s3+s2, s7+s6]`; the upper half `[s3+s2, s7+s6]` is
added element-wise onto the lower half `[s1+s0, s5+s4]`, giving
`[(s3+s2)+(s1+s0), (s7+s6)+(s5+s4)]`; the final `_mm_hadd_pd` adds the
upper lane onto the lower, and `_mm_cvtsd_f64` extracts
`((s7+s6)+(s5+s4)) + ((s3+s2)+(s1+s0))`.  For IEEE addition this is
bit-identical to the index-tree order `((s0+s1)+(s2+s3))+((s4+s5)+(s6+s7))`
because each operand swap is an application of the (bit-exact)
commutativity of floating-point addition; the theorems below therefore
take commutativity of `add` as a hypothesis where the AVX path is
involved. -/

/-- The value computed by one AVX 8-block, operand order as the intrinsics
produce it. -/
def hadd8 {α : Type} (add : α → α → α) (s0 s1 s2 s3 s4 s5 s6 s7 : α) : α :=
  add (add (add s7 s6) (add s5 s4)) (add (add s3 s2) (add s1 s0))

theorem hadd8_comm {α : Type} (add : α → α → α)
    (hcomm : ∀ a b, add a b = add b a) (s0 s1 s2 s3 s4 s5 s6 s7 : α) :
    hadd8 add s0 s1 s2 s3 s4 s5 s6 s7 =
      add (add (add s0 s1) (add s2 s3)) (add (add s4 s5) (add s6 s7)) := by
  unfold hadd8
  rw [hcomm s7 s6, hcomm s5 s4, hcomm s3 s2, hcomm s1 s0,
    hcomm (add s6 s7) (add s4 s5), hcomm (add s2 s3) (add s0 s1),
    hcomm (add (add s4 s5) (add s6 s7)) (add (add s0 s1) (add s2 s3))]

/-- Modelled from the spec: one pairing level of the missing six-argument
`sum_remaining_8tree` of `binary_tree.hpp` (declared and called at
src/unnamed/part_000 line 338 but not under `src/`).  Following spec
sections 4.4 and 4.5: adjacent buffer values combine as left + right; an
unpaired trailing value whose sibling subtree starts past `maxX`
(`e = maxX + 1`) is carried unchanged; otherwise the sibling subtree's
value is obtained from its owner with `messageBuffer.get` (the `fetch`
oracle) and added on the right. -/
def fetchLevel {α : Type} (add : α → α → α) (fetch : ℕ → Option α)
    (e stride : ℕ) : ℕ → List α → Option (List α)
  | _, [] => some []
  | x, [a] =>
    if e ≤ x + stride then some [a]
    else
      match fetch (x + stride) with
      | some v => some [add a v]
      | none => none
  | x, a :: b :: rest =>
    match fetchLevel add fetch e stride (x + 2 * stride) rest with
    | some l => some (add a b :: l)
    | none => none

/-- Modelled from the spec: the missing six-argument `sum_remaining_8tree`
— three pairing levels with doubling stride on the ragged tail, returning
the collapsed value. -/
def sum_remaining_8tree_fetch {α : Type} (add : α → α → α)
    (fetch : ℕ → Option α) (e x stride : ℕ) (l : List α) : Option α :=
  match fetchLevel add fetch e stride x l with
  | none => none
  | some l1 =>
    match fetchLevel add fetch e (2 * stride) x l1 with
    | none => none
    | some l2 =>
      match fetchLevel add fetch e (4 * stride) x l2 with
      | none => none
      | some l3 => l3.head?

/-- One `y`-iteration of the accumulate loop: full 8-blocks through the
AVX path, the ragged tail through `sum_remaining_8tree`. -/
def accPass {α : Type} (add : α → α → α) (fetch : ℕ → Option α)
    (e stride : ℕ) : ℕ → List α → Option (List α)
  | _, [] => some []
  | x, s0 :: s1 :: s2 :: s3 :: s4 :: s5 :: s6 :: s7 :: rest =>
    match accPass add fetch e stride (x + 8 * stride) rest with
    | some l => some (hadd8 add s0 s1 s2 s3 s4 s5 s6 s7 :: l)
    | none => none
  | x, l =>
    match sum_remaining_8tree_fetch add fetch e x stride l with
    | some a => some [a]
    | none => none

/-- The outer loop `for (y = 1; y <= maxY; y += 3)`: the pass count is
`ceil(maxY / 3)` and the stride grows by 8 per pass. -/
def accLoop {α : Type} (add : α → α → α) (fetch : ℕ → Option α)
    (e x0 : ℕ) : ℕ → ℕ → List α → Option (List α)
  | 0, _, l => some l
  | t + 1, stride, l =>
    match accPass add fetch e stride x0 l with
    | some l2 => accLoop add fetch e x0 t (8 * stride) l2
    | none => none

/-- Embedding of `BinaryTreeSummation::accumulate(uint64_t index)`
(src/unnamed/part_000, lines 294-354): odd indices read the buffer cell
directly; otherwise the truncated subtree bounds `maxX`, `maxY` and the
count of locally stored elements are computed in `uint64_t` arithmetic and
the pass loop reduces the buffer slice; the result is the first cell
(`none` embeds the out-of-range read `destinationBuffer[0]` when no
element was produced). -/
def accumulate {α : Type} (add : α → α → α) (fetch : ℕ → Option α)
    (N begin_ end_ : ℕ) (buf : List α) (index : ℕ) : Option α :=
  if index % 2 = 1 then buf[index - begin_]?
  else
    let maxX := if index = 0 then u64sub N 1
      else min (u64sub N 1) (index + subtree_size index - 1)
    let maxY := if index = 0 then clog2 N else flog2 (subtree_size index)
    let largestLocal := min maxX (u64sub end_ 1)
    let nLocal := (largestLocal + 1 + 2 ^ 64 - index) % 2 ^ 64
    let l := (buf.drop (index - begin_)).take nLocal
    match accLoop add fetch (maxX + 1) index ((maxY + 2) / 3) 1 l with
    | some res => res[0]?
    | none => none

/-- `k` pairing levels starting at level `h` (stride `2^h`). -/
def nLevels {α : Type} (add : α → α → α) (fetch : ℕ → Option α)
    (e x0 : ℕ) : ℕ → ℕ → List α → Option (List α)
  | 0, _, l => some l
  | k + 1, h, l =>
    match fetchLevel add fetch e (2 ^ h) x0 l with
    | some l2 => nLevels add fetch e x0 k (h + 1) l2
    | none => none

theorem fetchLevel_append_even {α : Type} (add : α → α → α)
    (fetch : ℕ → Option α) (e s : ℕ) :
    ∀ (l1 : List α) (x : ℕ) (l2 : List α), l1.length % 2 = 0 →
      fetchLevel add fetch e s x (l1 ++ l2) =
        (fetchLevel add fetch e s (x + l1.length * s) l2).map
          (fun l2' => pairLevel add l1 ++ l2') := by
  intro l1
  induction l1 using pairLevel.induct add with
  | case1 =>
    intro x l2 _
    simp only [List.nil_append, List.length_nil, Nat.zero_mul, Nat.add_zero]
    cases hE : fetchLevel add fetch e s x l2 <;> simp [pairLevel]
  | case2 a =>
    intro x l2 hpar
    simp at hpar
  | case3 a b rest ih =>
    intro x l2 hpar
    simp only [List.length_cons] at hpar
    have hrest : rest.length % 2 = 0 := by omega
    simp only [List.cons_append]
    show (match fetchLevel add fetch e s (x + 2 * s) (rest ++ l2) with
      | some l => some (add a b :: l)
      | none => none) = _
    rw [ih (x + 2 * s) l2 hrest]
    have hx : x + 2 * s + rest.length * s = x + (rest.length + 1 + 1) * s := by
      ring
    rw [hx]
    cases hE : fetchLevel add fetch e s (x + (rest.length + 1 + 1) * s) l2 <;>
      simp [hE, pairLevel, List.length_cons]

theorem fetchLevel_length {α : Type} (add : α → α → α)
    (fetch : ℕ → Option α) (e s : ℕ) :
    ∀ (l : List α) (x : ℕ) (l2 : List α),
      fetchLevel add fetch e s x l = some l2 →
      l2.length = (l.length + 1) / 2 := by
  intro l
  induction l using pairLevel.induct add with
  | case1 =>
    intro x l2 h
    simp only [fetchLevel, Option.some.injEq] at h
    subst h
    simp
  | case2 a =>
    intro x l2 h
    simp only [fetchLevel] at h
    by_cases hc : e ≤ x + s
    · rw [if_pos hc] at h
      simp only [Option.some.injEq] at h
      subst h
      simp
    · rw [if_neg hc] at h
      cases hf : fetch (x + s) with
      | none => rw [hf] at h; simp at h
      | some v =>
        rw [hf] at h
        simp only [Option.some.injEq] at h
        subst h
        simp
  | case3 a b rest ih =>
    intro x l2 h
    simp only [fetchLevel] at h
    cases hr : fetchLevel add fetch e s (x + 2 * s) rest with
    | none => rw [hr] at h; simp at h
    | some l' =>
      rw [hr] at h
      simp only [Option.some.injEq] at h
      subst h
      have := ih (x + 2 * s) l' hr
      simp only [List.length_cons, this]
      omega

/-- Three-level chain used to compare one pass with three pairing levels. -/
def levelChain {α : Type} (add : α → α → α) (fetch : ℕ → Option α)
    (e s x : ℕ) (l : List α) : Option (List α) :=
  match fetchLevel add fetch e s x l with
  | none => none
  | some l1 =>
    match fetchLevel add fetch e (2 * s) x l1 with
    | none => none
    | some l2 => fetchLevel add fetch e (4 * s) x l2

theorem accPass_small {α : Type} (add : α → α → α) (fetch : ℕ → Option α)
    (e s : ℕ) (l : List α) (x : ℕ) (h1 : l.length ≠ 0) (h7 : l.length < 8) :
    (match sum_remaining_8tree_fetch add fetch e x s l with
      | some a => some [a]
      | none => none) = levelChain add fetch e s x l := by
  unfold sum_remaining_8tree_fetch levelChain
  cases hA : fetchLevel add fetch e s x l with
  | none => rfl
  | some l1 =>
    show (match (match fetchLevel add fetch e (2 * s) x l1 with
        | none => none
        | some l2 =>
          match fetchLevel add fetch e (4 * s) x l2 with
          | none => none
          | some l3 => l3.head?) with
      | some a => some [a]
      | none => none) =
      (match fetchLevel add fetch e (2 * s) x l1 with
        | none => none
        | some l2 => fetchLevel add fetch e (4 * s) x l2)
    cases hB : fetchLevel add fetch e (2 * s) x l1 with
    | none => rfl
    | some l2 =>
      show (match (match fetchLevel add fetch e (4 * s) x l2 with
          | none => none
          | some l3 => l3.head?) with
        | some a => some [a]
        | none => none) = fetchLevel add fetch e (4 * s) x l2
      cases hC : fetchLevel add fetch e (4 * s) x l2 with
      | none => rfl
      | some l3 =>
        have hl1 := fetchLevel_length add fetch e s l x l1 hA
        have hl2 := fetchLevel_length add fetch e (2 * s) l1 x l2 hB
        have hl3 := fetchLevel_length add fetch e (4 * s) l2 x l3 hC
        have hone : l3.length = 1 := by omega
        obtain ⟨v, hv⟩ : ∃ v, l3 = [v] := by
          cases l3 with
          | nil => simp at hone
          | cons a t =>
            cases t with
            | nil => exact ⟨a, rfl⟩
            | cons b t2 => simp at hone
        subst hv
        rfl

theorem accPass_eq_levels_aux {α : Type} (add : α → α → α)
    (hcomm : ∀ a b, add a b = add b a) (fetch : ℕ → Option α) (e s : ℕ) :
    ∀ (n : ℕ) (l : List α), l.length ≤ n → ∀ (x : ℕ),
      accPass add fetch e s x l = levelChain add fetch e s x l := by
  intro n
  induction n with
  | zero =>
    intro l hl x
    have : l = [] := List.eq_nil_of_length_eq_zero (by omega)
    subst this
    rfl
  | succ n ih =>
    intro l hl x
    rcases l with _ | ⟨s0, _ | ⟨s1, _ | ⟨s2, _ | ⟨s3, _ | ⟨s4, _ | ⟨s5, _ |
      ⟨s6, _ | ⟨s7, rest⟩⟩⟩⟩⟩⟩⟩⟩
    · rfl
    · exact accPass_small add fetch e s [s0] x (by simp) (by simp)
    · exact accPass_small add fetch e s [s0, s1] x (by simp) (by simp)
    · exact accPass_small add fetch e s [s0, s1, s2] x (by simp) (by simp)
    · exact accPass_small add fetch e s [s0, s1, s2, s3] x (by simp) (by simp)
    · exact accPass_small add fetch e s [s0, s1, s2, s3, s4] x (by simp) (by simp)
    · exact accPass_small add fetch e s [s0, s1, s2, s3, s4, s5] x (by simp)
        (by simp)
    · exact accPass_small add fetch e s [s0, s1, s2, s3, s4, s5, s6] x (by simp)
        (by simp)
    · -- a full 8-block at the front
      have hrest : rest.length ≤ n := by
        simp only [List.length_cons] at hl
        omega
      show (match accPass add fetch e s (x + 8 * s) rest with
        | some l => some (hadd8 add s0 s1 s2 s3 s4 s5 s6 s7 :: l)
        | none => none) = _
      rw [ih rest hrest (x + 8 * s)]
      unfold levelChain
      have h8 : (s0 :: s1 :: s2 :: s3 :: s4 :: s5 :: s6 :: s7 :: rest) =
          [s0, s1, s2, s3, s4, s5, s6, s7] ++ rest := rfl
      rw [h8, fetchLevel_append_even add fetch e s
        [s0, s1, s2, s3, s4, s5, s6, s7] x rest (by simp)]
      have hx1 : x + ([s0, s1, s2, s3, s4, s5, s6, s7] : List α).length * s =
          x + 8 * s := by
        simp
      rw [hx1]
      cases h1 : fetchLevel add fetch e s (x + 8 * s) rest with
      | none => rfl
      | some r1 =>
        simp only [Option.map_some']
        have hpl : pairLevel add [s0, s1, s2, s3, s4, s5, s6, s7] =
            [add s0 s1, add s2 s3, add s4 s5, add s6 s7] := rfl
        rw [hpl, fetchLevel_append_even add fetch e (2 * s)
          [add s0 s1, add s2 s3, add s4 s5, add s6 s7] x r1 (by simp)]
        have hx2 : x + ([add s0 s1, add s2 s3, add s4 s5,
            add s6 s7] : List α).length * (2 * s) = x + 8 * s := by
          simp
          ring
        rw [hx2]
        cases h2 : fetchLevel add fetch e (2 * s) (x + 8 * s) r1 with
        | none => rfl
        | some r2 =>
          simp only [Option.map_some']
          have hpl2 : pairLevel add [add s0 s1, add s2 s3, add s4 s5, add s6 s7] =
              [add (add s0 s1) (add s2 s3), add (add s4 s5) (add s6 s7)] := rfl
          rw [hpl2, fetchLevel_append_even add fetch e (4 * s)
            [add (add s0 s1) (add s2 s3), add (add s4 s5) (add s6 s7)] x r2
            (by simp)]
          have hx4 : x + ([add (add s0 s1) (add s2 s3),
              add (add s4 s5) (add s6 s7)] : List α).length * (4 * s) =
              x + 8 * s := by
            simp
            ring
          rw [hx4]
          cases h3 : fetchLevel add fetch e (4 * s) (x + 8 * s) r2 with
          | none => rfl
          | some r3 =>
            simp only [Option.map_some']
            have hpl3 : pairLevel add [add (add s0 s1) (add s2 s3),
                add (add s4 s5) (add s6 s7)] =
                [add (add (add s0 s1) (add s2 s3)) (add (add s4 s5) (add s6 s7))] :=
              rfl
            rw [hpl3, hadd8_comm add hcomm]
            rfl

theorem accPass_eq_levels {α : Type} (add : α → α → α)
    (hcomm : ∀ a b, add a b = add b a) (fetch : ℕ → Option α) (e s : ℕ)
    (l : List α) (x : ℕ) :
    accPass add fetch e s x l = levelChain add fetch e s x l :=
  accPass_eq_levels_aux add hcomm fetch e s l.length l (le_refl _) x

theorem accLoop_eq_nLevels {α : Type} (add : α → α → α)
    (hcomm : ∀ a b, add a b = add b a) (fetch : ℕ → Option α) (e x : ℕ) :
    ∀ (t h : ℕ) (l : List α),
      accLoop add fetch e x t (2 ^ h) l = nLevels add fetch e x (3 * t) h l := by
  intro t
  induction t with
  | zero => intro h l; rfl
  | succ t ih =>
    intro h l
    have e1 : 2 * 2 ^ h = 2 ^ (h + 1) := by rw [Nat.pow_succ]; ring
    have e2 : 4 * 2 ^ h = 2 ^ (h + 2) := by rw [Nat.pow_succ, Nat.pow_succ]; ring
    have e3 : 8 * 2 ^ h = 2 ^ (h + 3) := by
      rw [Nat.pow_succ, Nat.pow_succ, Nat.pow_succ]; ring
    have h3 : 3 * (t + 1) = 3 * t + 1 + 1 + 1 := by ring
    rw [h3]
    show (match accPass add fetch e (2 ^ h) x l with
      | some l2 => accLoop add fetch e x t (8 * 2 ^ h) l2
      | none => none) =
      (match fetchLevel add fetch e (2 ^ h) x l with
      | some l2 => nLevels add fetch e x (3 * t + 1 + 1) (h + 1) l2
      | none => none)
    rw [accPass_eq_levels add hcomm fetch e (2 ^ h) l x]
    unfold levelChain
    cases hA : fetchLevel add fetch e (2 ^ h) x l with
    | none => rfl
    | some l1 =>
      show (match (match fetchLevel add fetch e (2 * 2 ^ h) x l1 with
          | none => none
          | some l2 => fetchLevel add fetch e (4 * 2 ^ h) x l2) with
        | some l2 => accLoop add fetch e x t (8 * 2 ^ h) l2
        | none => none) =
        (match fetchLevel add fetch e (2 ^ (h + 1)) x l1 with
        | some l2 => nLevels add fetch e x (3 * t + 1) (h + 1 + 1) l2
        | none => none)
      rw [e1]
      cases hB : fetchLevel add fetch e (2 ^ (h + 1)) x l1 with
      | none => rfl
      | some l2 =>
        show (match fetchLevel add fetch e (4 * 2 ^ h) x l2 with
          | some l3 => accLoop add fetch e x t (8 * 2 ^ h) l3
          | none => none) =
          (match fetchLevel add fetch e (2 ^ (h + 2)) x l2 with
          | some l3 => nLevels add fetch e x (3 * t) (h + 3) l3
          | none => none)
        rw [e2]
        cases hC : fetchLevel add fetch e (2 ^ (h + 2)) x l2 with
        | none => rfl
        | some l3 =>
          show accLoop add fetch e x t (8 * 2 ^ h) l3 =
            nLevels add fetch e x (3 * t) (h + 3) l3
          rw [e3]
          exact ih (h + 3) l3

theorem fetchLevel_step_aux {α : Type} (add : α → α → α) (A : List α)
    (fetch : ℕ → Option α) (e endLocal x0 h : ℕ)
    (Hdvd : 2 ^ (h + 1) ∣ x0)
    (HeN : e ≤ A.length)
    (Hstr : A.length ≤ e ∨ ∃ d, 0 < d ∧ e = x0 + d * 2 ^ (h + 1))
    (Hfetch : ∀ z, endLocal ≤ z → z < A.length → parent z < endLocal →
      fetch z = treeVal add A z (tz z)) :
    ∀ (n : ℕ) (l : List α), l.length ≤ n → ∀ (p : ℕ),
      (∀ j, j < l.length ↔ x0 + (2 * p + j) * 2 ^ h < min e endLocal) →
      (∀ j, j < l.length →
        l[j]? = treeVal add A (x0 + (2 * p + j) * 2 ^ h) h) →
      ∃ l', fetchLevel add fetch e (2 ^ h) (x0 + 2 * p * 2 ^ h) l = some l' ∧
        (∀ j, j < l'.length ↔ x0 + (p + j) * 2 ^ (h + 1) < min e endLocal) ∧
        (∀ j, j < l'.length →
          l'[j]? = treeVal add A (x0 + (p + j) * 2 ^ (h + 1)) (h + 1)) := by
  have hq : 2 ^ (h + 1) = 2 * 2 ^ h := by rw [Nat.pow_succ]; ring
  have hqpos : 0 < 2 ^ h := Nat.two_pow_pos h
  intro n
  induction n with
  | zero =>
    intro l hl p cov val
    have hnil : l = [] := List.eq_nil_of_length_eq_zero (by omega)
    subst hnil
    refine ⟨[], rfl, ?_, ?_⟩
    · intro j
      have h0 := cov 0
      simp only [List.length_nil] at h0 ⊢
      have hmle : min e endLocal ≤ x0 + (2 * p + 0) * 2 ^ h := by omega
      have hmono : x0 + (2 * p + 0) * 2 ^ h ≤ x0 + (p + j) * 2 ^ (h + 1) := by
        have : (2 * p + 0) * 2 ^ h ≤ (p + j) * 2 ^ (h + 1) := by
          rw [hq]
          have : 2 * p + 0 ≤ 2 * (p + j) := by omega
          calc (2 * p + 0) * 2 ^ h ≤ (2 * (p + j)) * 2 ^ h :=
                Nat.mul_le_mul_right _ this
            _ = (p + j) * (2 * 2 ^ h) := by ring
        omega
      omega
    · intro j hj
      simp at hj
  | succ n ih =>
    intro l hl p cov val
    rcases l with _ | ⟨a, _ | ⟨b, rest⟩⟩
    · -- empty row tail
      refine ⟨[], rfl, ?_, ?_⟩
      · intro j
        have h0 := cov 0
        simp only [List.length_nil] at h0 ⊢
        have hmle : min e endLocal ≤ x0 + (2 * p + 0) * 2 ^ h := by omega
        have hmono : x0 + (2 * p + 0) * 2 ^ h ≤ x0 + (p + j) * 2 ^ (h + 1) := by
          have : (2 * p + 0) * 2 ^ h ≤ (p + j) * 2 ^ (h + 1) := by
            rw [hq]
            have : 2 * p + 0 ≤ 2 * (p + j) := by omega
            calc (2 * p + 0) * 2 ^ h ≤ (2 * (p + j)) * 2 ^ h :=
                  Nat.mul_le_mul_right _ this
              _ = (p + j) * (2 * 2 ^ h) := by ring
          omega
        omega
      · intro j hj
        simp at hj
    · -- unpaired trailing cell
      have hx : x0 + (2 * p + 0) * 2 ^ h < min e endLocal := by
        have := (cov 0).mp (by simp)
        exact this
      have hxe : min e endLocal ≤ x0 + (2 * p + 1) * 2 ^ h := by
        have h1 := cov 1
        simp only [List.length_cons, List.length_nil] at h1
        omega
      have hval0 : treeVal add A (x0 + (2 * p + 0) * 2 ^ h) h = some a := by
        have := val 0 (by simp)
        simpa using this.symm
      have hpos1 : x0 + 2 * p * 2 ^ h + 2 ^ h = x0 + (2 * p + 1) * 2 ^ h := by
        ring
      simp only [fetchLevel]
      by_cases hg : e ≤ x0 + 2 * p * 2 ^ h + 2 ^ h
      · -- sibling subtree starts past maxX: carry the cell
        have hN : A.length ≤ x0 + (2 * p + 1) * 2 ^ h := by
          rcases Hstr with hNe | ⟨d, hd, he⟩
          · omega
          · exfalso
            have h2d : 2 * d ≤ 2 * p + 1 := by
              have hmul : d * 2 ^ (h + 1) ≤ (2 * p + 1) * 2 ^ h := by omega
              rw [hq] at hmul
              have hmul2 : (2 * d) * 2 ^ h ≤ (2 * p + 1) * 2 ^ h := by
                calc (2 * d) * 2 ^ h = d * (2 * 2 ^ h) := by ring
                  _ ≤ (2 * p + 1) * 2 ^ h := hmul
              exact Nat.le_of_mul_le_mul_right hmul2 hqpos
            have hdp : d ≤ p := by omega
            have : d * 2 ^ (h + 1) ≤ p * 2 ^ (h + 1) :=
              Nat.mul_le_mul_right _ hdp
            have hple : e ≤ x0 + p * 2 ^ (h + 1) := by omega
            have : x0 + p * 2 ^ (h + 1) = x0 + (2 * p + 0) * 2 ^ h := by
              rw [hq]; ring
            omega
        rw [if_pos hg]
        refine ⟨[a], rfl, ?_, ?_⟩
        · intro j
          simp only [List.length_cons, List.length_nil]
          constructor
          · intro hj
            have hj0 : j = 0 := by omega
            subst hj0
            have : x0 + (p + 0) * 2 ^ (h + 1) = x0 + (2 * p + 0) * 2 ^ h := by
              rw [hq]; ring
            omega
          · intro hlt
            by_contra hje
            have hj1 : 1 ≤ j := by omega
            have : x0 + (2 * p + 1) * 2 ^ h ≤ x0 + (p + j) * 2 ^ (h + 1) := by
              have : (2 * p + 1) * 2 ^ h ≤ (p + j) * 2 ^ (h + 1) := by
                rw [hq]
                have h1 : 2 * p + 1 ≤ 2 * (p + j) := by omega
                calc (2 * p + 1) * 2 ^ h ≤ (2 * (p + j)) * 2 ^ h :=
                      Nat.mul_le_mul_right _ h1
                  _ = (p + j) * (2 * 2 ^ h) := by ring
              omega
            omega
        · intro j hj
          have hj0 : j = 0 := by simpa using hj
          subst hj0
          have hpos : x0 + (p + 0) * 2 ^ (h + 1) = x0 + (2 * p + 0) * 2 ^ h := by
            rw [hq]; ring
          rw [hpos]
          have hsplit : (2 * p + 1) * 2 ^ h = (2 * p + 0) * 2 ^ h + 2 ^ h := by
            ring
          have : treeVal add A (x0 + (2 * p + 0) * 2 ^ h) (h + 1) =
              treeVal add A (x0 + (2 * p + 0) * 2 ^ h) h := by
            simp only [treeVal]
            rw [if_pos (by omega)]
          rw [this, hval0]
          simp
      · -- consult the remote owner of the sibling subtree
        have hze : x0 + (2 * p + 1) * 2 ^ h < e := by omega
        have hmz : endLocal ≤ x0 + (2 * p + 1) * 2 ^ h := by omega
        have hzN : x0 + (2 * p + 1) * 2 ^ h < A.length := by omega
        obtain ⟨c, hc⟩ := Hdvd
        have hform : x0 + (2 * p + 1) * 2 ^ h =
            2 ^ h * (2 * c + 2 * p + 1) := by
          rw [hc, hq]; ring
        have htzz : tz (x0 + (2 * p + 1) * 2 ^ h) = h := by
          rw [hform]
          exact tz_unique h (2 * c + 2 * p + 1) (by omega)
        have hzne : x0 + (2 * p + 1) * 2 ^ h ≠ 0 := by
          have : (2 * p + 1) * 2 ^ h ≠ 0 := by positivity
          omega
        have hpar : parent (x0 + (2 * p + 1) * 2 ^ h) < endLocal := by
          rw [parent_eq _ hzne, htzz]
          have : x0 + (2 * p + 1) * 2 ^ h - 2 ^ h =
              x0 + (2 * p + 0) * 2 ^ h := by
            have : (2 * p + 1) * 2 ^ h = (2 * p + 0) * 2 ^ h + 2 ^ h := by ring
            omega
          omega
        have hfz := Hfetch _ hmz hzN hpar
        rw [htzz] at hfz
        obtain ⟨vb, hvb⟩ := treeVal_total add A h _ hzN
        rw [hvb] at hfz
        rw [if_neg hg, hpos1, hfz]
        refine ⟨[add a vb], rfl, ?_, ?_⟩
        · intro j
          simp only [List.length_cons, List.length_nil]
          constructor
          · intro hj
            have hj0 : j = 0 := by omega
            subst hj0
            have : x0 + (p + 0) * 2 ^ (h + 1) = x0 + (2 * p + 0) * 2 ^ h := by
              rw [hq]; ring
            omega
          · intro hlt
            by_contra hje
            have hj1 : 1 ≤ j := by omega
            have : x0 + (2 * p + 1) * 2 ^ h ≤ x0 + (p + j) * 2 ^ (h + 1) := by
              have : (2 * p + 1) * 2 ^ h ≤ (p + j) * 2 ^ (h + 1) := by
                rw [hq]
                have h1 : 2 * p + 1 ≤ 2 * (p + j) := by omega
                calc (2 * p + 1) * 2 ^ h ≤ (2 * (p + j)) * 2 ^ h :=
                      Nat.mul_le_mul_right _ h1
                  _ = (p + j) * (2 * 2 ^ h) := by ring
              omega
            omega
        · intro j hj
          have hj0 : j = 0 := by simpa using hj
          subst hj0
          have hposj : x0 + (p + 0) * 2 ^ (h + 1) =
              x0 + (2 * p + 0) * 2 ^ h := by
            rw [hq]; ring
          rw [hposj]
          have hsplit : (2 * p + 1) * 2 ^ h = (2 * p + 0) * 2 ^ h + 2 ^ h := by
            ring
          have hsum : treeVal add A (x0 + (2 * p + 0) * 2 ^ h) (h + 1) =
              some (add a vb) := by
            simp only [treeVal]
            rw [if_neg (by omega)]
            have hsib : x0 + (2 * p + 0) * 2 ^ h + 2 ^ h =
                x0 + (2 * p + 1) * 2 ^ h := by ring
            rw [hval0, hsib, hvb]
          rw [hsum]
          simp
    · -- a full pair at the front
      have hx0cell : x0 + (2 * p + 0) * 2 ^ h < min e endLocal :=
        (cov 0).mp (by simp)
      have hx1cell : x0 + (2 * p + 1) * 2 ^ h < min e endLocal := by
        have := (cov 1).mp (by simp)
        exact this
      have hval0 : treeVal add A (x0 + (2 * p + 0) * 2 ^ h) h = some a := by
        have := val 0 (by simp)
        simpa using this.symm
      have hval1 : treeVal add A (x0 + (2 * p + 1) * 2 ^ h) h = some b := by
        have := val 1 (by simp)
        simpa using this.symm
      have hlr : rest.length ≤ n := by
        simp only [List.length_cons] at hl
        omega
      have covR : ∀ j, j < rest.length ↔
          x0 + (2 * (p + 1) + j) * 2 ^ h < min e endLocal := by
        intro j
        have := cov (j + 2)
        simp only [List.length_cons] at this
        have harg : 2 * p + (j + 2) = 2 * (p + 1) + j := by omega
        rw [harg] at this
        omega
      have valR : ∀ j, j < rest.length →
          rest[j]? = treeVal add A (x0 + (2 * (p + 1) + j) * 2 ^ h) h := by
        intro j hj
        have := val (j + 2) (by simp; omega)
        have harg : 2 * p + (j + 2) = 2 * (p + 1) + j := by omega
        rw [harg] at this
        simpa using this
      obtain ⟨l2, hfl, covL, valL⟩ := ih rest hlr (p + 1) covR valR
      simp only [fetchLevel]
      have hpos : x0 + 2 * p * 2 ^ h + 2 * 2 ^ h = x0 + 2 * (p + 1) * 2 ^ h := by
        ring
      rw [hpos, hfl]
      refine ⟨add a b :: l2, rfl, ?_, ?_⟩
      · intro j
        cases j with
        | zero =>
          simp only [List.length_cons]
          have : x0 + (p + 0) * 2 ^ (h + 1) = x0 + (2 * p + 0) * 2 ^ h := by
            rw [hq]; ring
          constructor
          · intro _; omega
          · intro _; omega
        | succ j =>
          have := covL j
          simp only [List.length_cons]
          have harg : x0 + (p + 1 + j) * 2 ^ (h + 1) =
              x0 + (p + (j + 1)) * 2 ^ (h + 1) := by ring
          rw [harg] at this
          omega
      · intro j hj
        cases j with
        | zero =>
          have hposj : x0 + (p + 0) * 2 ^ (h + 1) =
              x0 + (2 * p + 0) * 2 ^ h := by
            rw [hq]; ring
          rw [hposj]
          have hsplit : (2 * p + 1) * 2 ^ h = (2 * p + 0) * 2 ^ h + 2 ^ h := by
            ring
          have hsum : treeVal add A (x0 + (2 * p + 0) * 2 ^ h) (h + 1) =
              some (add a b) := by
            simp only [treeVal]
            rw [if_neg (by omega)]
            have hsib : x0 + (2 * p + 0) * 2 ^ h + 2 ^ h =
                x0 + (2 * p + 1) * 2 ^ h := by ring
            rw [hval0, hsib, hval1]
          rw [hsum]
          simp
        | succ j =>
          simp only [List.length_cons] at hj
          have hjl : j < l2.length := by omega
          have := valL j hjl
          have harg : x0 + (p + 1 + j) * 2 ^ (h + 1) =
              x0 + (p + (j + 1)) * 2 ^ (h + 1) := by ring
          rw [harg] at this
          simpa using this

theorem nLevels_add {α : Type} (add : α → α → α) (fetch : ℕ → Option α)
    (e x0 : ℕ) : ∀ (k1 k2 h : ℕ) (l : List α),
    nLevels add fetch e x0 (k1 + k2) h l =
      (match nLevels add fetch e x0 k1 h l with
        | some l1 => nLevels add fetch e x0 k2 (h + k1) l1
        | none => none) := by
  intro k1
  induction k1 with
  | zero =>
    intro k2 h l
    simp [nLevels]
  | succ k1 ih =>
    intro k2 h l
    have hk : k1 + 1 + k2 = (k1 + k2) + 1 := by omega
    rw [hk]
    show (match fetchLevel add fetch e (2 ^ h) x0 l with
      | some l2 => nLevels add fetch e x0 (k1 + k2) (h + 1) l2
      | none => none) =
      (match (match fetchLevel add fetch e (2 ^ h) x0 l with
        | some l2 => nLevels add fetch e x0 k1 (h + 1) l2
        | none => none) with
      | some l1 => nLevels add fetch e x0 k2 (h + (k1 + 1)) l1
      | none => none)
    cases hf : fetchLevel add fetch e (2 ^ h) x0 l with
    | none => rfl
    | some l2 =>
      show nLevels add fetch e x0 (k1 + k2) (h + 1) l2 =
        (match nLevels add fetch e x0 k1 (h + 1) l2 with
        | some l1 => nLevels add fetch e x0 k2 (h + (k1 + 1)) l1
        | none => none)
      rw [ih k2 (h + 1) l2]
      have : h + 1 + k1 = h + (k1 + 1) := by omega
      rw [this]

theorem nLevels_singleton {α : Type} (add : α → α → α) (fetch : ℕ → Option α)
    (e x0 : ℕ) : ∀ (k h : ℕ) (a : α), e ≤ x0 + 2 ^ h →
    nLevels add fetch e x0 k h [a] = some [a] := by
  intro k
  induction k with
  | zero => intro h a _; rfl
  | succ k ih =>
    intro h a he
    have hstep : fetchLevel add fetch e (2 ^ h) x0 [a] = some [a] := by
      simp only [fetchLevel]
      rw [if_pos he]
    show (match fetchLevel add fetch e (2 ^ h) x0 [a] with
      | some l2 => nLevels add fetch e x0 k (h + 1) l2
      | none => none) = some [a]
    rw [hstep]
    exact ih (h + 1) a (le_trans he (by
      have : (2 : ℕ) ^ h ≤ 2 ^ (h + 1) := Nat.pow_le_pow_right (by omega) (by omega)
      omega))

theorem nLevels_rows {α : Type} (add : α → α → α) (A : List α)
    (fetch : ℕ → Option α) (e endLocal : ℕ)
    (HeN : e ≤ A.length)
    (Hfetch : ∀ z, endLocal ≤ z → z < A.length → parent z < endLocal →
      fetch z = treeVal add A z (tz z)) :
    ∀ (k h x0 : ℕ) (l : List α),
      2 ^ (h + k) ∣ x0 →
      (A.length ≤ e ∨ ∃ d, 0 < d ∧ e = x0 + d * 2 ^ (h + k)) →
      (∀ j, j < l.length ↔ x0 + j * 2 ^ h < min e endLocal) →
      (∀ j, j < l.length → l[j]? = treeVal add A (x0 + j * 2 ^ h) h) →
      ∃ l', nLevels add fetch e x0 k h l = some l' ∧
        (∀ j, j < l'.length ↔ x0 + j * 2 ^ (h + k) < min e endLocal) ∧
        (∀ j, j < l'.length →
          l'[j]? = treeVal add A (x0 + j * 2 ^ (h + k)) (h + k)) := by
  intro k
  induction k with
  | zero =>
    intro h x0 l _ _ cov val
    exact ⟨l, rfl, by simpa using cov, by simpa using val⟩
  | succ k ih =>
    intro h x0 l Hdvd Hstr cov val
    have Hdvd1 : 2 ^ (h + 1) ∣ x0 :=
      dvd_trans (pow_dvd_pow 2 (by omega)) Hdvd
    have hexp : h + (k + 1) = (h + 1) + k := by omega
    have Hstr1 : A.length ≤ e ∨ ∃ d, 0 < d ∧ e = x0 + d * 2 ^ (h + 1) := by
      rcases Hstr with hN | ⟨d, hd, he⟩
      · exact Or.inl hN
      · right
        refine ⟨d * 2 ^ k, by positivity, ?_⟩
        rw [he, hexp, pow_add]
        ring
    obtain ⟨l1, hf1, cov1, val1⟩ := fetchLevel_step_aux add A fetch e endLocal
      x0 h Hdvd1 HeN Hstr1 Hfetch l.length l le_rfl 0
      (by intro j; simpa using cov j)
      (by intro j hj; simpa using val j hj)
    have hx00 : x0 + 2 * 0 * 2 ^ h = x0 := by ring
    rw [hx00] at hf1
    have Hdvd' : 2 ^ ((h + 1) + k) ∣ x0 := by rwa [← hexp]
    have Hstr' : A.length ≤ e ∨
        ∃ d, 0 < d ∧ e = x0 + d * 2 ^ ((h + 1) + k) := by
      rwa [← hexp]
    obtain ⟨l', hnl, cov', val'⟩ := ih (h + 1) x0 l1 Hdvd' Hstr'
      (by intro j; simpa using cov1 j)
      (by intro j hj; have := val1 j hj; simpa using this)
    refine ⟨l', ?_, ?_, ?_⟩
    · show (match fetchLevel add fetch e (2 ^ h) x0 l with
        | some l2 => nLevels add fetch e x0 k (h + 1) l2
        | none => none) = some l'
      rw [hf1]
      exact hnl
    · intro j
      rw [hexp]
      exact cov' j
    · intro j hj
      rw [hexp]
      exact val' j hj

theorem take_getElem? {α : Type} (l : List α) (n j : ℕ) (h : j < n) :
    (l.take n)[j]? = l[j]? := by
  rw [List.getElem?_take]
  rw [if_pos h]

theorem length_one_eq {α : Type} (l : List α) (h : l.length = 1) :
    ∃ a, l = [a] := by
  cases l with
  | nil => simp at h
  | cons a t =>
    cases t with
    | nil => exact ⟨a, rfl⟩
    | cons b t2 => simp at h

theorem accumulate_correct {α : Type} (add : α → α → α)
    (hcomm : ∀ a b, add a b = add b a) (A : List α) (fetch : ℕ → Option α)
    (begin_ end_ index : ℕ) (buf : List α)
    (hA64 : A.length < 2 ^ 64)
    (hlen : buf.length = end_ - begin_)
    (hbuf : ∀ i, i < buf.length → buf[i]? = A[begin_ + i]?)
    (hbe : begin_ ≤ index) (hie : index < end_) (hend : end_ ≤ A.length)
    (Hfetch : ∀ z, end_ ≤ z → z < A.length → parent z < end_ →
      fetch z = treeVal add A z (tz z)) :
    accumulate add fetch A.length begin_ end_ buf index =
      treeVal add A index (if index = 0 then clog2 A.length else tz index) := by
  have hN1 : 1 ≤ A.length := by omega
  by_cases hodd : index % 2 = 1
  · -- odd index: direct read of the local buffer cell
    have h0 : index ≠ 0 := by omega
    simp only [accumulate]
    rw [if_pos hodd, if_neg h0, tz_odd hodd]
    have hi : index - begin_ < buf.length := by omega
    rw [hbuf (index - begin_) hi]
    have hp : begin_ + (index - begin_) = index := by omega
    rw [hp]
    rfl
  · by_cases h0 : index = 0
    · -- the root: e is the whole array, maxY is clog2 N
      subst h0
      have hb0 : begin_ = 0 := by omega
      subst hb0
      simp only [accumulate]
      rw [if_neg hodd]
      simp only [if_true]
      rw [u64sub_eq hA64 hN1, u64sub_eq (by omega : end_ < 2 ^ 64) (by omega)]
      have he : A.length - 1 + 1 = A.length := by omega
      rw [he]
      have hnl : (min (A.length - 1) (end_ - 1) + 1 + 2 ^ 64 - 0) % 2 ^ 64 =
          end_ := by omega
      rw [hnl]
      simp only [Nat.sub_self, List.drop_zero]
      obtain ⟨l, hldef⟩ : ∃ l, buf.take end_ = l := ⟨_, rfl⟩
      rw [hldef]
      have hlt : l.length = end_ := by
        rw [← hldef, List.length_take]
        omega
      have cov : ∀ j, j < l.length ↔ 0 + j * 2 ^ 0 < min A.length end_ := by
        intro j
        rw [hlt]
        omega
      have val : ∀ j, j < l.length →
          l[j]? = treeVal add A (0 + j * 2 ^ 0) 0 := by
        intro j hj
        rw [hlt] at hj
        rw [← hldef, take_getElem? buf end_ j hj, hbuf j (by omega)]
        have hp : (0 : ℕ) + j = 0 + j * 2 ^ 0 := by omega
        rw [hp]
        rfl
      obtain ⟨l', hnl', cov', val'⟩ := nLevels_rows add A fetch A.length end_
        le_rfl Hfetch (clog2 A.length) 0 0 l (dvd_zero _) (Or.inl le_rfl)
        cov val
      simp only [Nat.zero_add] at cov' val'
      have hCge := clog2_ge hN1
      have hl1 : l'.length = 1 := by
        have c0 := cov' 0
        have c1 := cov' 1
        omega
      obtain ⟨v, hv⟩ := length_one_eq l' hl1
      subst hv
      have hval := val' 0 (by omega)
      have hpos0 : 0 * 2 ^ clog2 A.length = 0 := by omega
      rw [hpos0] at hval
      have hvv : treeVal add A 0 (clog2 A.length) = some v := by
        simpa using hval.symm
      have hloop := accLoop_eq_nLevels add hcomm fetch A.length 0
        ((clog2 A.length + 2) / 3) 0 l
      rw [pow_zero] at hloop
      have hKsplit : 3 * ((clog2 A.length + 2) / 3) =
          clog2 A.length + (3 * ((clog2 A.length + 2) / 3) - clog2 A.length) :=
        by omega
      rw [hKsplit, nLevels_add, hnl'] at hloop
      have hloop2 : accLoop add fetch A.length 0 ((clog2 A.length + 2) / 3) 1 l =
          nLevels add fetch A.length 0
            (3 * ((clog2 A.length + 2) / 3) - clog2 A.length)
            (0 + clog2 A.length) [v] := hloop
      have hsing := nLevels_singleton add fetch A.length 0
        (3 * ((clog2 A.length + 2) / 3) - clog2 A.length) (0 + clog2 A.length) v
        (by rw [Nat.zero_add, Nat.zero_add]; exact hCge)
      rw [hloop2, hsing]
      exact hvv.symm
    · -- an interior even index: e is the truncated subtree, maxY = tz index
      obtain ⟨T, hT⟩ : ∃ t, tz index = t := ⟨tz index, rfl⟩
      have hTpow : 1 ≤ 2 ^ T := Nat.one_le_two_pow
      have hiN : index < A.length := by omega
      simp only [accumulate]
      rw [if_neg hodd, if_neg h0, if_neg h0, if_neg h0]
      rw [subtree_size_eq index h0, hT]
      rw [flog2_two_pow T]
      rw [u64sub_eq hA64 (by omega), u64sub_eq (by omega : end_ < 2 ^ 64)
        (by omega)]
      have hE : min (A.length - 1) (index + 2 ^ T - 1) + 1 =
          min A.length (index + 2 ^ T) := by omega
      have hNL : (min (min (A.length - 1) (index + 2 ^ T - 1)) (end_ - 1) + 1 +
          2 ^ 64 - index) % 2 ^ 64 =
          min (min A.length (index + 2 ^ T)) end_ - index := by omega
      rw [hE, hNL]
      obtain ⟨l, hldef⟩ : ∃ l, (buf.drop (index - begin_)).take
          (min (min A.length (index + 2 ^ T)) end_ - index) = l := ⟨_, rfl⟩
      rw [hldef]
      have hlt : l.length = min (min A.length (index + 2 ^ T)) end_ - index := by
        rw [← hldef, List.length_take, List.length_drop, hlen]
        omega
      have cov : ∀ j, j < l.length ↔
          index + j * 2 ^ 0 < min (min A.length (index + 2 ^ T)) end_ := by
        intro j
        rw [hlt]
        omega
      have val : ∀ j, j < l.length →
          l[j]? = treeVal add A (index + j * 2 ^ 0) 0 := by
        intro j hj
        rw [hlt] at hj
        rw [← hldef, take_getElem? _ _ _ hj, List.getElem?_drop,
          hbuf (index - begin_ + j) (by omega)]
        have hp : begin_ + (index - begin_ + j) = index + j * 2 ^ 0 := by omega
        rw [hp]
        rfl
      have Hdvd : 2 ^ (0 + T) ∣ index := by
        rw [Nat.zero_add, ← hT]
        exact tz_dvd index
      have Hstr : A.length ≤ min A.length (index + 2 ^ T) ∨
          ∃ d, 0 < d ∧ min A.length (index + 2 ^ T) = index + d * 2 ^ (0 + T) := by
        rcases le_or_lt A.length (index + 2 ^ T) with hle | hlt2
        · left
          omega
        · right
          refine ⟨1, by omega, ?_⟩
          rw [Nat.zero_add, one_mul]
          omega
      obtain ⟨l', hnl', cov', val'⟩ := nLevels_rows add A fetch
        (min A.length (index + 2 ^ T)) end_ (min_le_left _ _) Hfetch
        T 0 index l Hdvd Hstr cov val
      simp only [Nat.zero_add] at cov' val'
      have hl1 : l'.length = 1 := by
        have c0 := cov' 0
        have c1 := cov' 1
        clear Hstr Hfetch hbuf cov val cov' val' hnl' hldef
        omega
      obtain ⟨v, hv⟩ := length_one_eq l' hl1
      subst hv
      have hval := val' 0 (by omega)
      have hpos0 : index + 0 * 2 ^ T = index := by omega
      rw [hpos0] at hval
      have hvv : treeVal add A index T = some v := by
        simpa using hval.symm
      have hloop := accLoop_eq_nLevels add hcomm fetch
        (min A.length (index + 2 ^ T)) index ((T + 2) / 3) 0 l
      rw [pow_zero] at hloop
      have hKsplit : 3 * ((T + 2) / 3) = T + (3 * ((T + 2) / 3) - T) := by omega
      rw [hKsplit, nLevels_add, hnl'] at hloop
      have hloop2 : accLoop add fetch (min A.length (index + 2 ^ T)) index
          ((T + 2) / 3) 1 l =
          nLevels add fetch (min A.length (index + 2 ^ T)) index
            (3 * ((T + 2) / 3) - T) (0 + T) [v] := hloop
      have hsing := nLevels_singleton add fetch (min A.length (index + 2 ^ T))
        index (3 * ((T + 2) / 3) - T) (0 + T) v
        (by rw [Nat.zero_add]; exact min_le_right _ _)
      rw [hloop2, hsing]
      exact hvv.symm

/-- One non-root rank's send for summand `z`: the local accumulation of
`BinaryTreeSummation::accumulate()` (part_000 lines 271-282) over the region
`[b, e)` of the global array, reading remote summands through the message
pool `M`. -/
def rankSends {α : Type} (add : α → α → α) (A : List α) (M : ℕ → Option α)
    (b e z : ℕ) : Option α :=
  accumulate add M A.length b e ((A.drop b).take (e - b)) z

/-- The pool of messages produced by the ranks owning `regions` (in array
order): each rank puts `accumulate(summand)` for every rank-intersecting
summand of its region, reading later ranks' messages
(part_000 lines 272-282). -/
def buildFetch {α : Type} (add : α → α → α) (A : List α) :
    List (ℕ × ℕ) → ℕ → Option α
  | [] => fun _ => none
  | (b, len) :: rest => fun z =>
    if z ∈ calculateRankIntersectingSummands b (b + len) then
      rankSends add A (buildFetch add A rest) b (b + len) z
    else buildFetch add A rest z

/-- The given `(start, length)` regions tile `[c, N)` contiguously in rank
order; a region may be empty (`len = 0`). -/
def tilesFrom (c N : ℕ) : List (ℕ × ℕ) → Bool
  | [] => c == N
  | (b, len) :: rest => b == c && tilesFrom (c + len) N rest

/-- The region at array position 0 owns at least one summand. -/
def frontNonempty : List (ℕ × ℕ) → Bool
  | [] => false
  | (_, len) :: _ => len != 0

/-- The value returned on the root: rank 0 runs `accumulate(0)` over its own
region, reading every other rank's messages (part_000 line 286). -/
def distributedSum {α : Type} (add : α → α → α) (A : List α) :
    List (ℕ × ℕ) → Option α
  | [] => none
  | (b0, len0) :: rest =>
    accumulate add (buildFetch add A rest) A.length b0 (b0 + len0)
      ((A.drop b0).take (b0 + len0 - b0)) 0

theorem tilesFrom_le : ∀ (rs : List (ℕ × ℕ)) (c N : ℕ),
    tilesFrom c N rs = true → c ≤ N := by
  intro rs
  induction rs with
  | nil =>
    intro c N h
    simp only [tilesFrom, beq_iff_eq] at h
    omega
  | cons r rest ih =>
    obtain ⟨b, len⟩ := r
    intro c N h
    simp only [tilesFrom, Bool.and_eq_true, beq_iff_eq] at h
    obtain ⟨hb, htrest⟩ := h
    have := ih (c + len) N htrest
    omega

theorem buildFetch_correct {α : Type} (add : α → α → α)
    (hcomm : ∀ a b, add a b = add b a) (A : List α)
    (hA64 : A.length < 2 ^ 64) :
    ∀ (regions : List (ℕ × ℕ)) (c : ℕ), 0 < c →
      tilesFrom c A.length regions = true →
      ∀ z, c ≤ z → z < A.length → parent z < c →
        buildFetch add A regions z = treeVal add A z (tz z) := by
  intro regions
  induction regions with
  | nil =>
    intro c hc htile z hcz hzN hpz
    simp only [tilesFrom, beq_iff_eq] at htile
    omega
  | cons r rest ih =>
    obtain ⟨b, len⟩ := r
    intro c hc htile z hcz hzN hpz
    simp only [tilesFrom, Bool.and_eq_true, beq_iff_eq] at htile
    obtain ⟨hb, htrest⟩ := htile
    subst hb
    have hbN : b + len ≤ A.length := tilesFrom_le rest (b + len) A.length htrest
    by_cases hz : z < b + len
    · -- z is a rank-intersecting summand of this region
      have hmem : z ∈ calculateRankIntersectingSummands b (b + len) := by
        unfold calculateRankIntersectingSummands
        exact walk_hits (b + len - b) b (b + len) z (by omega) hcz hz
          (Or.inl hpz)
      have Hfetch' : ∀ z', b + len ≤ z' → z' < A.length →
          parent z' < b + len →
          buildFetch add A rest z' = treeVal add A z' (tz z') :=
        fun z' h1 h2 h3 => ih (b + len) (by omega) htrest z' h1 h2 h3
      have hz0 : z ≠ 0 := by omega
      have hkey := accumulate_correct add hcomm A (buildFetch add A rest)
        b (b + len) z ((A.drop b).take (b + len - b)) hA64
        (by rw [List.length_take, List.length_drop]; omega)
        (by
          intro i hi
          rw [List.length_take, List.length_drop] at hi
          rw [take_getElem? _ _ _ (by omega), List.getElem?_drop])
        hcz hz hbN Hfetch'
      rw [if_neg hz0] at hkey
      simp only [buildFetch]
      rw [if_pos hmem]
      exact hkey
    · -- z lives on a later rank
      have hnotmem : z ∉ calculateRankIntersectingSummands b (b + len) := by
        intro hmem
        have := walk_mem_bounds _ _ _ _ hmem
        omega
      simp only [buildFetch]
      rw [if_neg hnotmem]
      exact ih (b + len) (by omega) htrest z (by omega) hzN (by omega)

theorem distributedSum_eq_treeVal {α : Type} (add : α → α → α)
    (hcomm : ∀ a b, add a b = add b a) (A : List α)
    (hA64 : A.length < 2 ^ 64) (hN : 1 ≤ A.length) :
    ∀ (regions : List (ℕ × ℕ)), tilesFrom 0 A.length regions = true →
      frontNonempty regions = true →
      distributedSum add A regions =
        treeVal add A 0 (clog2 A.length) := by
  intro regions htile hfront
  cases regions with
  | nil =>
    simp only [tilesFrom, beq_iff_eq] at htile
    omega
  | cons r rest =>
    obtain ⟨b0, len0⟩ := r
    simp only [tilesFrom, Bool.and_eq_true, beq_iff_eq] at htile
    obtain ⟨hb0, htrest⟩ := htile
    simp only [frontNonempty, bne_iff_ne] at hfront
    have hlen0 : len0 ≠ 0 := hfront
    subst hb0
    have hbN : 0 + len0 ≤ A.length := tilesFrom_le rest (0 + len0) A.length htrest
    have Hfetch : ∀ z, 0 + len0 ≤ z → z < A.length → parent z < 0 + len0 →
        buildFetch add A rest z = treeVal add A z (tz z) :=
      fun z h1 h2 h3 =>
        buildFetch_correct add hcomm A hA64 rest (0 + len0) (by omega)
          htrest z h1 h2 h3
    have hkey := accumulate_correct add hcomm A (buildFetch add A rest)
      0 (0 + len0) 0 ((A.drop 0).take (0 + len0 - 0)) hA64
      (by rw [List.length_take, List.length_drop]; omega)
      (by
        intro i hi
        rw [List.length_take, List.length_drop] at hi
        rw [take_getElem? _ _ _ (by omega), List.getElem?_drop])
      (by omega) (by omega) hbN Hfetch
    rw [if_pos rfl] at hkey
    exact hkey

/-- **C1 (amended: the region at array position 0 is nonempty).**
Cross-partition reproducibility: for every addition (only commutativity is
used, matching the operand mirroring of the AVX `hadd` path), every global
array `A` with `1 ≤ N < 2^64`, and every partitioning of `[0, N)` into
contiguous per-rank regions in rank order — empty regions allowed anywhere
except array position 0 — the value returned on the root by the distributed
run of `BinaryTreeSummation::accumulate` equals the single-process
reference sum (one region holding all of `[0, N)`), bit for bit.  When the
front region is empty the first rank owning elements starts at index 0 and
its summand walk never terminates (see the counterexample), so no sum is
returned there at all. -/
theorem C1_cross_partition_reproducibility {α : Type} (add : α → α → α)
    (hcomm : ∀ a b, add a b = add b a) (A : List α)
    (hA64 : A.length < 2 ^ 64) (hN : 1 ≤ A.length)
    (regions : List (ℕ × ℕ)) (htile : tilesFrom 0 A.length regions = true)
    (hfront : frontNonempty regions = true) :
    distributedSum add A regions = distributedSum add A [(0, A.length)] := by
  have htile1 : tilesFrom 0 A.length [(0, A.length)] = true := by
    simp only [tilesFrom, Bool.and_eq_true, beq_iff_eq]
    exact ⟨by trivial, by omega⟩
  have hfront1 : frontNonempty [(0, A.length)] = true := by
    simp only [frontNonempty, bne_iff_ne]
    omega
  rw [distributedSum_eq_treeVal add hcomm A hA64 hN regions htile hfront,
    distributedSum_eq_treeVal add hcomm A hA64 hN [(0, A.length)] htile1
      hfront1]

theorem C1_cross_partition_reproducibility_witness :
    (∀ a b : ℕ, Nat.add a b = Nat.add b a) ∧
    ([10, 20, 30] : List ℕ).length < 2 ^ 64 ∧
    1 ≤ ([10, 20, 30] : List ℕ).length ∧
    tilesFrom 0 ([10, 20, 30] : List ℕ).length [(0, 1), (1, 2), (3, 0)] =
      true ∧
    frontNonempty [(0, 1), (1, 2), (3, 0)] = true ∧
    distributedSum Nat.add [10, 20, 30] [(0, 1), (1, 2), (3, 0)] =
      distributedSum Nat.add [10, 20, 30] [(0, 3)] :=
  ⟨Nat.add_comm, by decide, by decide, by decide, by decide,
    C1_cross_partition_reproducibility Nat.add Nat.add_comm [10, 20, 30]
      (by decide) (by decide) [(0, 1), (1, 2), (3, 0)] (by decide)
      (by decide)⟩

/-- `subtree_size` evaluated in `uint64` arithmetic exactly as the source
expression `largest_child_index(index) + 1 - index` is (part_000 lines
360-367): at `index = 0` the bitwise-or against `0 - 1` saturates to
`2^64 - 1` and the `+ 1` wraps, giving `0`; the `assert(index != 0)` is
compiled out by the NDEBUG define on line 1. -/
def subtree_size_u64 (i : ℕ) : ℕ :=
  ((i ||| u64sub i 1) + 1 + 2 ^ 64 - i) % 2 ^ 64

/-- The `while (index < end)` loop of `calculateRankIntersectingSummands`
(part_000 lines 258-264) in `uint64` arithmetic with an explicit iteration
bound: `none` means the loop has not terminated within `f` iterations. -/
def walkU : ℕ → ℕ → ℕ → Option (List ℕ)
  | 0, i, e => if i < e then none else some []
  | f + 1, i, e =>
    if i < e then
      match walkU f (i + subtree_size_u64 i) e with
      | some l => some (i :: l)
      | none => none
    else some []

/-- The summand walk over `[b, e)` never terminates, whatever iteration
bound is allowed. -/
def walkDiverges (b e : ℕ) : Prop := ∀ f, walkU f b e = none

theorem subtree_size_u64_zero : subtree_size_u64 0 = 0 := by decide

theorem walkU_zero_start (e : ℕ) (he : 0 < e) : walkDiverges 0 e := by
  intro f
  induction f with
  | zero =>
    show (if 0 < e then none else some []) = none
    rw [if_pos he]
  | succ f ih =>
    show (if 0 < e then
        match walkU f (0 + subtree_size_u64 0) e with
        | some l => some (0 :: l)
        | none => none
      else some []) = none
    rw [if_pos he, subtree_size_u64_zero]
    simp only [Nat.add_zero]
    rw [ih]

theorem subtree_size_u64_eq (i : ℕ) (h0 : i ≠ 0) (h64 : i < 2 ^ 64) :
    subtree_size_u64 i = subtree_size i := by
  obtain ⟨m, hm, heq⟩ := tz_spec i h0
  have hlor : i ||| (i - 1) = i + 2 ^ tz i - 1 := by
    have h2 := lor_pred_pow (tz i) m hm
    rw [← heq] at h2
    exact h2
  have hle : 2 ^ tz i ≤ i := Nat.le_of_dvd (by omega) (tz_dvd i)
  have hpos : 0 < 2 ^ tz i := Nat.two_pow_pos _
  rw [subtree_size_eq i h0]
  unfold subtree_size_u64
  rw [u64sub_eq h64 (by omega), hlor]
  omega

theorem walkU_eq_walkF : ∀ (f b e : ℕ), 0 < b → e ≤ 2 ^ 64 → e - b ≤ f →
    walkU f b e = some (walkF f b e) := by
  intro f
  induction f with
  | zero =>
    intro b e hb he hf
    have hbe : ¬ b < e := by omega
    show (if b < e then none else some []) = some (walkF 0 b e)
    rw [if_neg hbe]
    rfl
  | succ f ih =>
    intro b e hb he hf
    by_cases hbe : b < e
    · have hss : subtree_size_u64 b = subtree_size b :=
        subtree_size_u64_eq b (by omega) (by omega)
      have hpos := subtree_size_pos b hb
      show (if b < e then
          match walkU f (b + subtree_size_u64 b) e with
          | some l => some (b :: l)
          | none => none
        else some []) = some (walkF (f + 1) b e)
      rw [if_pos hbe, hss,
        ih (b + subtree_size b) e (by omega) he (by omega)]
      show some (b :: walkF f (b + subtree_size b) e) = some (walkF (f + 1) b e)
      simp only [walkF]
      rw [if_pos hbe]
    · show (if b < e then
          match walkU f (b + subtree_size_u64 b) e with
          | some l => some (b :: l)
          | none => none
        else some []) = some (walkF (f + 1) b e)
      rw [if_neg hbe]
      simp only [walkF]
      rw [if_neg hbe]

/-- **C1 counterexample.** Splitting `N = 1` across `P = 2` processes (as
the even distribution of part_001 lines 74-88 does when `P > N`: rank 0
gets the empty region, rank 1 owns `[0, 1)`) is a partitioning the claim
covers but reproducibility fails on: rank 1 is a non-root rank with
`begin = 0`, the `assert(begin != 0)` of part_000 line 256 is compiled out
by NDEBUG, `subtree_size(0)` wraps to `0` in `uint64`, and the summand walk
of the constructor never terminates — the distributed run returns no sum at
all, while the single-process reference returns the summand. -/
theorem C1_empty_front_region_counterexample :
    tilesFrom 0 1 [(0, 0), (0, 1)] = true ∧
    frontNonempty [(0, 0), (0, 1)] = false ∧
    walkDiverges 0 1 ∧
    distributedSum Nat.add [5] [(0, 1)] = some 5 :=
  ⟨by decide, by decide, walkU_zero_start 1 (by decide), by decide⟩

/-- **C3.** Boundary behaviour.  With `N = 1` the returned sum is exactly
`A[0]` for every partitioning whose array-position-0 region is nonempty
(trailing or interior empty regions allowed, so any process count).  When
the front region is empty — forced for `P > N` by the even distribution —
the rank owning `[0, 1)` has `begin = 0` and its summand walk never
terminates, so the `N = 1` half of the claim fails there: no value is
returned at all.  With `N = 0` (a single empty region) the run also yields
no value: the constructor resizes the accumulation buffer to length `0`
(the `size - 8` guard underflows), `nLocal` is `0`, no pass runs, and the
final `destinationBuffer[0]` read is out of range — the embedding returns
`none`, not the claimed `0.0`. -/
theorem C3_boundary_behaviour {α : Type} (add : α → α → α)
    (hcomm : ∀ a b, add a b = add b a) (a : α)
    (regions : List (ℕ × ℕ)) (htile : tilesFrom 0 1 regions = true)
    (hfront : frontNonempty regions = true) :
    distributedSum add [a] regions = some a ∧
    walkDiverges 0 1 ∧
    distributedSum add ([] : List α) [(0, 0)] = none := by
  refine ⟨?_, walkU_zero_start 1 (by omega), ?_⟩
  · have hres := distributedSum_eq_treeVal add hcomm [a]
      (by simp) (by simp) regions (by simpa using htile) hfront
    rw [hres]
    rfl
  · simp only [distributedSum, accumulate, List.length_nil, if_true]
    rfl

theorem C3_boundary_behaviour_witness :
    (∀ a b : ℕ, Nat.add a b = Nat.add b a) ∧
    tilesFrom 0 1 [(0, 1), (1, 0)] = true ∧
    frontNonempty [(0, 1), (1, 0)] = true ∧
    (distributedSum Nat.add [42] [(0, 1), (1, 0)] = some 42 ∧
      walkDiverges 0 1 ∧
      distributedSum Nat.add ([] : List ℕ) [(0, 0)] = none) :=
  ⟨Nat.add_comm, by decide, by decide,
    C3_boundary_behaviour Nat.add Nat.add_comm 42 [(0, 1), (1, 0)]
      (by decide) (by decide)⟩

/-- The pass loop of `accumulate(uint64_t)` with the in-place writes made
explicit: each pass writes its `elementsWritten` results over the front of
the region (`destinationBuffer` aliases the accumulation buffer), the rest
of the region keeps its previous contents, and `elementsInBuffer` shrinks
to the number of cells written. -/
def accLoopState {α : Type} (add : α → α → α) (fetch : ℕ → Option α)
    (e x0 : ℕ) : ℕ → ℕ → ℕ → List α → Option (List α × ℕ)
  | 0, _, k, region => some (region, k)
  | t + 1, stride, k, region =>
    match accPass add fetch e stride x0 (region.take k) with
    | some out =>
      accLoopState add fetch e x0 t (8 * stride)
        out.length (out ++ region.drop out.length)
    | none => none

/-- Stateful embedding of `BinaryTreeSummation::accumulate(uint64_t)`
(part_000 lines 294-354): identical to `accumulate` except that the mutated
accumulation buffer is returned along with the result, since
`destinationBuffer` points into `accumulationBuffer` at `index - begin` and
the pass results overwrite it. -/
def accumulateState {α : Type} (add : α → α → α) (fetch : ℕ → Option α)
    (N begin_ end_ : ℕ) (buf : List α) (index : ℕ) : Option α × List α :=
  if index % 2 = 1 then (buf[index - begin_]?, buf)
  else
    let maxX := if index = 0 then u64sub N 1
      else min (u64sub N 1) (index + subtree_size index - 1)
    let maxY := if index = 0 then clog2 N else flog2 (subtree_size index)
    let largestLocal := min maxX (u64sub end_ 1)
    let nLocal := (largestLocal + 1 + 2 ^ 64 - index) % 2 ^ 64
    match accLoopState add fetch (maxX + 1) index ((maxY + 2) / 3) 1 nLocal
        (buf.drop (index - begin_)) with
    | some (region, _) => (region[0]?, buf.take (index - begin_) ++ region)
    | none => (none, buf)

/-- One invocation of the driver `accumulate()` (part_000 lines 271-291) on
rank 0 of a one-rank cluster: there are no rank-intersecting summands, so
the call reduces to `accumulate(0)`; the accumulation buffer it mutates is
the same one the next invocation reads. -/
def accumulateDriverOnce {α : Type} (add : α → α → α) (N : ℕ)
    (buf : List α) : Option α × List α :=
  accumulateState add (fun _ => none) N 0 N buf 0

/-- **C2 counterexample.** On a one-rank cluster with buffer `[0, 1]`, the
first `accumulate()` returns `0 + 1 = 1` but overwrites the buffer front
with the partial sums, so the second `accumulate()` returns `2`: invoking
`accumulate` twice on the same buffer does not return the same value. -/
theorem C2_accumulate_not_idempotent_counterexample :
    (accumulateDriverOnce Nat.add 2 [0, 1]).1 = some 1 ∧
    (accumulateDriverOnce Nat.add 2
      (accumulateDriverOnce Nat.add 2 [0, 1]).2).1 = some 2 := by
  constructor <;> decide

/-- **C2 (amended).** Invoking `accumulate` twice in succession returns the
same value both times only when no pass runs over the buffer, e.g. when the
local buffer holds at most one summand — then nothing is overwritten and the
second call reads the untouched cell. -/
theorem C2_accumulate_idempotent_short {α : Type} (add : α → α → α)
    (buf : List α) (h : buf.length ≤ 1) :
    (accumulateDriverOnce add buf.length
        (accumulateDriverOnce add buf.length buf).2).1 =
      (accumulateDriverOnce add buf.length buf).1 := by
  rcases buf with _ | ⟨a, t⟩
  · simp only [accumulateDriverOnce, accumulateState, List.length_nil,
      List.drop_nil, if_true]
    rfl
  · rcases t with _ | ⟨b, t2⟩
    · simp only [accumulateDriverOnce, accumulateState, List.length_cons,
        List.length_nil, if_true]
      rfl
    · simp at h

theorem C2_accumulate_idempotent_short_witness :
    ([7] : List ℕ).length ≤ 1 ∧
    (accumulateDriverOnce Nat.add ([7] : List ℕ).length
        (accumulateDriverOnce Nat.add ([7] : List ℕ).length [7]).2).1 =
      (accumulateDriverOnce Nat.add ([7] : List ℕ).length [7]).1 :=
  ⟨by decide, C2_accumulate_idempotent_short Nat.add [7] (by decide)⟩
